import Mathlib

/-!
Shallow embedding of the coap-lite packet codec (src/src/packet.rs).

Bytes are modelled as natural numbers; `u8` values are naturals below 256 and
`u16` casts are written with an explicit `% 65536` (resp. `% 256`) exactly
where the source performs a cast or where 16-bit arithmetic can overflow.
Rust byte slices become `List Nat`.  A Rust indexing or slicing operation
whose bounds could fail is modelled through `Option`, where `none` stands for
an index-out-of-bounds abort; decoding functions therefore return
`Option (Except CoapError _)`, and proving that they never return `none`
establishes that no read ever goes past the buffer bounds.
-/

deriving instance DecidableEq for Except

/-- The error enumeration, as used by packet.rs (error.rs itself is not under
verification; only these five constructors are referenced). -/
inductive CoapError where
  | InvalidHeader
  | InvalidTokenLength
  | InvalidOptionDelta
  | InvalidOptionLength
  | InvalidPacketLength
deriving DecidableEq

/-- Modelled from the spec: the Header Provider (header.rs is not among the
sources under verification; spec section 6 fixes its interface).  The fixed
header is exactly 4 bytes on the wire: byte 0 packs protocol version (2 bits),
message type (2 bits) and token length (4 bits); byte 1 is the message code,
with code 0 denoting the content-less Empty message class; bytes 2 and 3 are
the big-endian message identifier. -/
structure Header where
  version : Nat
  mtype : Nat
  tkl : Nat
  code : Nat
  messageId : Nat
deriving DecidableEq

/-- Modelled from the spec: the header of a freshly constructed, empty
message (the spec does not fix the defaults; all fields start at zero, so the
message class starts as the Empty class). -/
def Header.new : Header :=
  ⟨0, 0, 0, 0, 0⟩

/-- Modelled from the spec: the Header Provider's token-length mutator; it
stores its (byte-sized) argument, keeping the header field synchronized with
the token as spec section 3 requires. -/
def Header.set_token_length (h : Header) (v : Nat) : Header :=
  { h with tkl := v }

/-- Modelled from the spec: protocol-version mutator (a 2-bit field). -/
def Header.set_version (h : Header) (v : Nat) : Header :=
  { h with version := v % 4 }

/-- Modelled from the spec: message-type mutator (a 2-bit field). -/
def Header.set_type (h : Header) (t : Nat) : Header :=
  { h with mtype := t % 4 }

/-- Modelled from the spec: message-identifier mutator (a 16-bit field). -/
def Header.set_message_id (h : Header) (m : Nat) : Header :=
  { h with messageId := m % 65536 }

/-- Modelled from the spec: decoding the 4 fixed header bytes
(Header::from_raw composed with HeaderRaw::try_from, which fails exactly when
fewer than 4 bytes are available; that length guard lives in from_bytes
below). -/
def headerFromRaw (b0 b1 b2 b3 : Nat) : Header :=
  ⟨b0 / 64, b0 / 16 % 4, b0 % 16, b1, b2 * 256 + b3⟩

/-- Modelled from the spec: serializing a header into its 4 wire bytes
(Header::to_raw followed by serialize_into; writing 4 bytes into a growable
buffer cannot fail, so the source's error branch is unreachable and the model
is total). -/
def serializeHeader (h : Header) : List Nat :=
  [h.version % 4 * 64 + h.mtype % 4 * 16 + h.tkl % 16,
   h.code % 256, h.messageId / 256 % 256, h.messageId % 256]

/-- The option table: `BTreeMap<usize, LinkedList<Vec<u8>>>`, embedded as an
association list whose keys are kept in strictly ascending order (the BTreeMap
invariant); iteration order of the source map is exactly list order here. -/
abbrev OptMap := List (Nat × List (List Nat))

/-- `BTreeMap::get` on the sorted association list. -/
def mapGet : OptMap → Nat → Option (List (List Nat))
  | [], _ => none
  | (k, v) :: rest, key => if key = k then some v else mapGet rest key

/-- `BTreeMap::insert` (replacing any previous value) on the sorted
association list. -/
def mapInsert (key : Nat) (val : List (List Nat)) : OptMap → OptMap
  | [] => [(key, val)]
  | (k, v) :: rest =>
    if key < k then (key, val) :: (k, v) :: rest
    else if key = k then (key, val) :: rest
    else (k, v) :: mapInsert key val rest

/-- `options.entry(key).or_insert_with(LinkedList::new).push_back(x)`:
append one value at the end of the key's list, creating the entry at its
sorted position when absent. -/
def mapAppend (key : Nat) (x : List Nat) : OptMap → OptMap
  | [] => [(key, [x])]
  | (k, v) :: rest =>
    if key < k then (key, [x]) :: (k, v) :: rest
    else if key = k then (k, v ++ [x]) :: rest
    else (k, v) :: mapAppend key x rest

/-- `get_mut` followed by `list.clear()`: empty the key's list without
removing the entry; do nothing when the key is absent. -/
def mapClear (key : Nat) : OptMap → OptMap
  | [] => []
  | (k, v) :: rest =>
    if key = k then (k, []) :: rest else (k, v) :: mapClear key rest

/-- The CoapOption enumeration (packet.rs lines 20-42). -/
inductive CoapOption where
  | IfMatch
  | UriHost
  | ETag
  | IfNoneMatch
  | Observe
  | UriPort
  | LocationPath
  | Oscore
  | UriPath
  | ContentFormat
  | MaxAge
  | UriQuery
  | Accept
  | LocationQuery
  | Block2
  | Block1
  | ProxyUri
  | ProxyScheme
  | Size1
  | Size2
  | NoResponse
deriving DecidableEq

/-- Packet::get_option_number (packet.rs lines 423-447). -/
def CoapOption.get_option_number : CoapOption → Nat
  | .IfMatch => 1
  | .UriHost => 3
  | .ETag => 4
  | .IfNoneMatch => 5
  | .Observe => 6
  | .UriPort => 7
  | .LocationPath => 8
  | .Oscore => 9
  | .UriPath => 11
  | .ContentFormat => 12
  | .MaxAge => 14
  | .UriQuery => 15
  | .Accept => 17
  | .LocationQuery => 20
  | .Block2 => 23
  | .Block1 => 27
  | .ProxyUri => 35
  | .ProxyScheme => 39
  | .Size1 => 60
  | .Size2 => 28
  | .NoResponse => 258

/-- The numbers of the ContentFormat enumeration (packet.rs lines 45-61). -/
def contentFormatNumbers : List Nat :=
  [0, 40, 41, 42, 47, 50, 60, 110, 111, 112, 113, 114, 115, 310, 311]

/-- `ContentFormat::from_u16` (num_derive's FromPrimitive): the number itself
when it names a variant, `none` otherwise. -/
def contentFormatFromU16 (n : Nat) : Option Nat :=
  if n ∈ contentFormatNumbers then some n else none

/-- The Packet structure (packet.rs lines 69-75). -/
structure Packet where
  header : Header
  token : List Nat
  options : OptMap
  payload : List Nat
deriving DecidableEq

/-- Packet::new (lines 81-88). -/
def Packet.new : Packet :=
  ⟨Header.new, [], [], []⟩

/-- Packet::set_token (lines 94-97): `token.len() as u8` is the `% 256`. -/
def Packet.set_token (p : Packet) (t : List Nat) : Packet :=
  { p with header := p.header.set_token_length (t.length % 256), token := t }

/-- Packet::set_option (lines 103-106). -/
def Packet.set_option (p : Packet) (tp : CoapOption) (value : List (List Nat)) : Packet :=
  { p with options := mapInsert tp.get_option_number value p.options }

/-- Packet::set_payload (lines 117-119). -/
def Packet.set_payload (p : Packet) (pl : List Nat) : Packet :=
  { p with payload := pl }

/-- Packet::add_option (lines 121-131). -/
def Packet.add_option (p : Packet) (tp : CoapOption) (value : List Nat) : Packet :=
  { p with options := mapAppend tp.get_option_number value p.options }

/-- Packet::get_option (lines 133-136). -/
def Packet.get_option (p : Packet) (tp : CoapOption) : Option (List (List Nat)) :=
  mapGet p.options tp.get_option_number

/-- Packet::clear_option (lines 138-143). -/
def Packet.clear_option (p : Packet) (tp : CoapOption) : Packet :=
  { p with options := mapClear tp.get_option_number p.options }

/-- Assigning to the public `header.code` field (used by the source's own
tests); a MessageClass value always corresponds to a code byte. -/
def Packet.set_code (p : Packet) (c : Nat) : Packet :=
  { p with header := { p.header with code := c % 256 } }

/-- Packet::get_content_format (lines 145-157).  The outer `Option` models
partiality: `vector[0]` and `vector[1]` are unguarded indexing operations, so
a first value shorter than 2 bytes aborts (outer `none`); otherwise the
source's `Option<ContentFormat>` result is returned. -/
def Packet.get_content_format (p : Packet) : Option (Option Nat) :=
  match mapGet p.options 12 with
  | none => some none
  | some list =>
    match list with
    | [] => some none
    | v :: _ =>
      match v[0]?, v[1]? with
      | some msb, some lsb => some (contentFormatFromU16 (msb * 256 + lsb))
      | _, _ => none

/-- One extended-value read of the option codec, on the unread suffix of the
buffer (from_bytes, the `match delta` block at lines 210-236 and the
`match length` block at lines 239-266): nibble 13 consumes one extension byte
(value `b + 13`), nibble 14 consumes two big-endian extension bytes (the
`+ 269` is 16-bit arithmetic in the source, hence the explicit `% 65536`),
nibble 15 is reserved and rejected with `err`, any other nibble is the value
itself.  Returns the decoded value and the unread remainder. -/
def readExtS (v : Nat) (err : CoapError) (l : List Nat) :
    Except CoapError (Nat × List Nat) :=
  if v = 13 then
    match l with
    | [] => .error .InvalidOptionLength
    | b :: t => .ok (b + 13, t)
  else if v = 14 then
    match l with
    | b0 :: b1 :: t => .ok ((b0 * 256 + b1 + 269) % 65536, t)
    | _ => .error .InvalidOptionLength
  else if v = 15 then .error err
  else .ok (v, l)

theorem readExtS_length {v : Nat} {err : CoapError} {l : List Nat} {x : Nat}
    {l2 : List Nat} (h : readExtS v err l = .ok (x, l2)) :
    l2.length ≤ l.length := by
  unfold readExtS at h
  split_ifs at h
  · cases l with
    | nil => exact absurd h (by simp)
    | cons b t =>
      simp only [Except.ok.injEq, Prod.mk.injEq] at h
      rw [← h.2]
      simp only [List.length_cons]
      omega
  · cases l with
    | nil => exact absurd h (by simp)
    | cons b0 t =>
      cases t with
      | nil => exact absurd h (by simp)
      | cons b1 t2 =>
        simp only [Except.ok.injEq, Prod.mk.injEq] at h
        rw [← h.2]
        simp only [List.length_cons]
        omega
  · injection h with h
    injection h with h1 h2
    rw [h2]

/-- The option-parsing loop of Packet::from_bytes (lines 197-282), written on
the unread suffix of the buffer: `n` is the running option number, `acc` the
option table built so far.  The loop stops, returning the remaining suffix,
when the 0xFF payload marker is reached (the suffix then starts with that
marker) or when the buffer is exhausted (empty suffix); one iteration reads
the option header byte, the delta and length extensions, checks that `length`
value bytes remain, and appends the value under key `n + delta`. -/
def parseOptsS (l : List Nat) (n : Nat) (acc : OptMap) :
    Except CoapError (OptMap × List Nat) :=
  match l with
  | [] => .ok (acc, [])
  | byte :: rest =>
    if byte = 255 then .ok (acc, byte :: rest)
    else
      match h1 : readExtS (byte / 16) CoapError.InvalidOptionDelta rest with
      | .error e => .error e
      | .ok (delta, rest1) =>
        match h2 : readExtS (byte % 16) CoapError.InvalidOptionLength rest1 with
        | .error e => .error e
        | .ok (len, rest2) =>
          if len > rest2.length then .error CoapError.InvalidOptionLength
          else
            parseOptsS (rest2.drop len) (n + delta)
              (mapAppend (n + delta) (rest2.take len) acc)
termination_by l.length
decreasing_by
  have t1 := readExtS_length h1
  have t2 := readExtS_length h2
  simp only [List.length_cons, List.length_drop]
  omega

/-- The structural form of Packet::from_bytes (lines 175-299): parse the
4-byte header (`InvalidHeader` when fewer than 4 bytes are supplied), check
the declared token length, slice out the token, run the option loop, and take
everything after the marker (or nothing) as payload. -/
def Packet.from_bytesS (buf : List Nat) : Except CoapError Packet :=
  if buf.length < 4 then .error .InvalidHeader
  else
    let header := headerFromRaw (buf.getD 0 0) (buf.getD 1 0) (buf.getD 2 0) (buf.getD 3 0)
    if header.tkl > 8 then .error .InvalidTokenLength
    else if 4 + header.tkl > buf.length then .error .InvalidTokenLength
    else
      let token := (buf.drop 4).take header.tkl
      match parseOptsS (buf.drop (4 + header.tkl)) 0 [] with
      | .error e => .error e
      | .ok (options, rest) => .ok ⟨header, token, options, rest.tail⟩

/-- Rust slice expression `l[s..e]`: `none` (abort) when the bounds fail. -/
def sliceChecked (l : List Nat) (s e : Nat) : Option (List Nat) :=
  if s ≤ e ∧ e ≤ l.length then some ((l.take e).drop s) else none

/-- The extended-value read exactly as the source performs it, indexing into
the full buffer: each read carries the source's explicit bounds guard
(lines 212, 219, 241, 249), and `none` models an out-of-bounds index abort
(the error paths of `buf[idx]`).  Returns the decoded value and the number of
extension bytes consumed (the source's `idx += 1` / `idx += 2`). -/
def readExtIdx (buf : List Nat) (idx v : Nat) (err : CoapError) :
    Option (Except CoapError (Nat × Nat)) :=
  if v = 13 then
    if idx ≥ buf.length then some (.error CoapError.InvalidOptionLength)
    else
      match buf[idx]? with
      | none => none
      | some b => some (.ok (b + 13, 1))
  else if v = 14 then
    if idx + 1 ≥ buf.length then some (.error CoapError.InvalidOptionLength)
    else
      match buf[idx]?, buf[idx + 1]? with
      | some b0, some b1 => some (.ok ((b0 * 256 + b1 + 269) % 65536, 2))
      | _, _ => none
  else if v = 15 then some (.error err)
  else some (.ok (v, 0))

/-- The option-parsing loop of Packet::from_bytes in the source's own shape:
a cursor `idx` into the whole buffer (`while idx < buf.len()`), the running
option number `n`, and the accumulated table `acc`.  Every buffer access goes
through a checked read whose failure (`none`) models an abort; the loop stops
at the payload marker (returning `idx` still pointing at the marker, line
200-202) or when the cursor reaches the end of the buffer.  The source's
`idx > buf.len()` disjunct on line 200 is unreachable and elided. -/
def parseOptsIdx (buf : List Nat) (idx n : Nat) (acc : OptMap) :
    Option (Except CoapError (OptMap × Nat)) :=
  if hlt : idx < buf.length then
    match buf[idx]? with
    | none => none
    | some byte =>
      if byte = 255 then some (.ok (acc, idx))
      else
        match readExtIdx buf (idx + 1) (byte / 16) CoapError.InvalidOptionDelta with
        | none => none
        | some (.error e) => some (.error e)
        | some (.ok (delta, c1)) =>
          match readExtIdx buf (idx + 1 + c1) (byte % 16) CoapError.InvalidOptionLength with
          | none => none
          | some (.error e) => some (.error e)
          | some (.ok (len, c2)) =>
            if idx + 1 + c1 + c2 + len > buf.length then
              some (.error CoapError.InvalidOptionLength)
            else
              match sliceChecked buf (idx + 1 + c1 + c2) (idx + 1 + c1 + c2 + len) with
              | none => none
              | some v =>
                parseOptsIdx buf (idx + 1 + c1 + c2 + len) (n + delta)
                  (mapAppend (n + delta) v acc)
  else some (.ok (acc, idx))
termination_by buf.length - idx
decreasing_by omega

/-- Packet::from_bytes (lines 175-299): the decoder as the source writes it.
`none` models an abort through an unchecked buffer access; `some` carries the
source's `Result`.  The token slice `buf[4..options_start]` (line 191) and
the payload slice `buf[(idx + 1)..buf.len()]` (line 285) go through the
checked slice. -/
def Packet.from_bytes (buf : List Nat) : Option (Except CoapError Packet) :=
  if buf.length < 4 then some (.error CoapError.InvalidHeader)
  else
    let header := headerFromRaw (buf.getD 0 0) (buf.getD 1 0) (buf.getD 2 0) (buf.getD 3 0)
    if header.tkl > 8 then some (.error CoapError.InvalidTokenLength)
    else if 4 + header.tkl > buf.length then some (.error CoapError.InvalidTokenLength)
    else
      match sliceChecked buf 4 (4 + header.tkl) with
      | none => none
      | some token =>
        match parseOptsIdx buf (4 + header.tkl) 0 [] with
        | none => none
        | some (.error e) => some (.error e)
        | some (.ok (options, idx)) =>
          if idx < buf.length then
            match sliceChecked buf (idx + 1) buf.length with
            | none => none
            | some payload => some (.ok ⟨header, token, options, payload⟩)
          else some (.ok ⟨header, token, options, []⟩)

/-- The nibble selected for a delta or length value `v` in Packet::to_bytes
(lines 310-324): the value itself up to 12, the marker 13 below 269, the
marker 14 from 269 on. -/
def nibbleCode (v : Nat) : Nat :=
  if v ≤ 12 then v else if v < 269 then 13 else 14

/-- The extension bytes emitted after the option header byte for a delta or
length value `v` (lines 327-341): none up to 12, one byte `v - 13` below 269
(an exact `u8`, the cast kept explicit), and from 269 on the two big-endian
bytes of `(v - 269) as u16` (the cast truncates, hence `% 65536`). -/
def extBytesOf (v : Nat) : List Nat :=
  if v ≤ 12 then []
  else if v < 269 then [(v - 13) % 256]
  else [(v - 269) % 65536 / 256, (v - 269) % 256]

/-- The full wire bytes of one option record: header byte (delta nibble high,
length nibble low, line 310-325), delta extension bytes, length extension
bytes, then the raw value (lines 345-361). -/
def optionRecordBytes (delta : Nat) (value : List Nat) : List Nat :=
  (nibbleCode delta * 16 + nibbleCode value.length)
    :: (extBytesOf delta ++ extBytesOf value.length ++ value)

/-- The inner loop of Packet::to_bytes over one key's value list (lines
306-362): each value's delta is `number - acc` with the running total `acc`
(`options_delta_length`), which then advances by that delta.  Returns the
emitted bytes and the final running total. -/
def encodeValuesFor (number : Nat) (vals : List (List Nat)) (acc : Nat) :
    List Nat × Nat :=
  match vals with
  | [] => ([], acc)
  | v :: rest =>
    let delta := number - acc
    let r := encodeValuesFor number rest (acc + delta)
    (optionRecordBytes delta v ++ r.1, r.2)

/-- The outer loop of Packet::to_bytes over the option table in ascending key
order (lines 303-363). -/
def encodeOptions : OptMap → Nat → List Nat
  | [], _ => []
  | (number, vals) :: rest, acc =>
    let r := encodeValuesFor number vals acc
    r.1 ++ encodeOptions rest r.2

/-- The option bytes of a packet (to_bytes starts its running total at 0). -/
def optionsBytesOf (p : Packet) : List Nat :=
  encodeOptions p.options 0

/-- Whether to_bytes writes the 0xFF marker and the payload (lines 366-370
and 401-416): only when the message class is not Empty and the payload is
non-empty. -/
def payloadPart (p : Packet) : List Nat :=
  if p.header.code ≠ 0 ∧ p.payload ≠ [] then 255 :: p.payload else []

/-- The total length computed by to_bytes before any buffer is built (lines
365-371): 4 header bytes, the payload and token lengths, one marker byte when
the marker is written, and the option bytes.  (The payload length is counted
even when the Empty message class suppresses the payload itself.) -/
def bufLength (p : Packet) : Nat :=
  4 + p.payload.length + p.token.length
    + (if p.header.code ≠ 0 ∧ p.payload ≠ [] then 1 else 0)
    + (optionsBytesOf p).length

/-- The bytes to_bytes assembles when the length check passes (lines
377-417): header, token, option bytes, then marker and payload when
written. -/
def encodedBytes (p : Packet) : List Nat :=
  serializeHeader p.header ++ p.token ++ optionsBytesOf p ++ payloadPart p

/-- Packet::to_bytes (lines 302-421): build the option bytes, compute the
total length, fail with InvalidPacketLength beyond 1280 bytes, otherwise
assemble the buffer.  Serializing the 4 header bytes cannot fail, so the
source's InvalidHeader branch (line 419) is unreachable and the model is
total. -/
def Packet.to_bytes (p : Packet) : Except CoapError (List Nat) :=
  if bufLength p > 1280 then .error CoapError.InvalidPacketLength
  else .ok (encodedBytes p)

/-- All entries of a byte list are bytes. -/
def IsBytes (l : List Nat) : Prop :=
  ∀ b ∈ l, b < 256

instance (l : List Nat) : Decidable (IsBytes l) := by
  unfold IsBytes; infer_instance

/-- Keys of the option table are strictly ascending and at least `lb` (the
BTreeMap ordering invariant, relativized to a lower bound). -/
def KeysSortedFrom : Nat → OptMap → Prop
  | _, [] => True
  | lb, (k, _) :: rest => lb ≤ k ∧ KeysSortedFrom (k + 1) rest

instance : ∀ (lb : Nat) (l : OptMap), Decidable (KeysSortedFrom lb l)
  | _, [] => .isTrue trivial
  | lb, (k, _) :: rest =>
    have : Decidable (KeysSortedFrom (k + 1) rest) := instDecidableKeysSortedFrom _ rest
    instDecidableAnd

/-- Packets built via the programmatic surface of the crate: `new`, then any
sequence of `set_token` (tokens of at most 8 bytes), `add_option`,
`set_option`, `set_payload`, and the public header mutators (version, type,
message id, and assignment to the public `code` field). -/
inductive Built : Packet → Prop
  | new : Built Packet.new
  | setToken {p} (t : List Nat) : Built p → t.length ≤ 8 → IsBytes t →
      Built (p.set_token t)
  | addOption {p} (tp : CoapOption) (v : List Nat) : Built p → IsBytes v →
      Built (p.add_option tp v)
  | setOption {p} (tp : CoapOption) (vs : List (List Nat)) : Built p →
      (∀ v ∈ vs, IsBytes v) → Built (p.set_option tp vs)
  | setPayload {p} (pl : List Nat) : Built p → IsBytes pl →
      Built (p.set_payload pl)
  | setVersion {p} (v : Nat) : Built p →
      Built { p with header := p.header.set_version v }
  | setType {p} (t : Nat) : Built p →
      Built { p with header := p.header.set_type t }
  | setMessageId {p} (m : Nat) : Built p →
      Built { p with header := p.header.set_message_id m }
  | setCode {p} (c : Nat) : Built p → Built (p.set_code c)

/-! ### Bridge: the index-based decoder equals the structural decoder

The source walks the buffer with a cursor; `parseOptsS` walks the unread
suffix.  The following lemmas show the two agree and that the cursor version
never aborts (`none`), i.e. every buffer access stays in bounds. -/

theorem readExt_bridge_err {buf : List Nat} {idx v : Nat} {err : CoapError}
    {e : CoapError} (h : readExtS v err (buf.drop idx) = .error e) :
    readExtIdx buf idx v err = some (.error e) := by
  by_cases h13 : v = 13
  · subst h13
    cases hd : buf.drop idx with
    | nil =>
      have hge : buf.length ≤ idx := List.drop_eq_nil_iff.mp hd
      rw [hd] at h
      simp [readExtS] at h
      simp [readExtIdx, hge, ← h]
    | cons b t =>
      rw [hd] at h
      simp [readExtS] at h
  · by_cases h14 : v = 14
    · subst h14
      cases hd : buf.drop idx with
      | nil =>
        have hge : buf.length ≤ idx := List.drop_eq_nil_iff.mp hd
        rw [hd] at h
        simp [readExtS] at h
        simp [readExtIdx, ← h, show buf.length ≤ idx + 1 by omega]
      | cons b0 t =>
        cases t with
        | nil =>
          have hlen : buf.length = idx + 1 := by
            have h1 := congrArg List.length hd
            simp at h1
            omega
          rw [hd] at h
          simp [readExtS] at h
          simp [readExtIdx, ← h, show buf.length ≤ idx + 1 by omega]
        | cons b1 t2 =>
          rw [hd] at h
          simp [readExtS] at h
    · by_cases h15 : v = 15
      · subst h15
        simp [readExtS] at h
        simp [readExtIdx, ← h]
      · simp [readExtS, h13, h14, h15] at h

theorem readExt_bridge_ok {buf : List Nat} {idx v : Nat} {err : CoapError}
    {x : Nat} {rest : List Nat} (hle : idx ≤ buf.length)
    (h : readExtS v err (buf.drop idx) = .ok (x, rest)) :
    ∃ c, idx + c ≤ buf.length ∧ rest = buf.drop (idx + c) ∧
      readExtIdx buf idx v err = some (.ok (x, c)) := by
  by_cases h13 : v = 13
  · subst h13
    cases hd : buf.drop idx with
    | nil =>
      rw [hd] at h
      simp [readExtS] at h
    | cons b t =>
      have hlt : idx < buf.length := by
        by_contra hc
        rw [List.drop_eq_nil_iff.mpr (by omega)] at hd
        cases hd
      have hx := (List.drop_eq_getElem_cons hlt).symm.trans hd
      injection hx with hx1 hx2
      rw [hd] at h
      simp [readExtS] at h
      refine ⟨1, by omega, by rw [← h.2, hx2], ?_⟩
      simp [readExtIdx, show ¬buf.length ≤ idx by omega,
        List.getElem?_eq_getElem hlt, hx1, h.1]
  · by_cases h14 : v = 14
    · subst h14
      cases hd : buf.drop idx with
      | nil =>
        rw [hd] at h
        simp [readExtS] at h
      | cons b0 t =>
        cases t with
        | nil =>
          rw [hd] at h
          simp [readExtS] at h
        | cons b1 t2 =>
          have hlen2 : idx + 1 < buf.length := by
            have h1 := congrArg List.length hd
            simp at h1
            omega
          have hlt : idx < buf.length := by omega
          have hx := (List.drop_eq_getElem_cons hlt).symm.trans hd
          injection hx with hx1 hx2
          have hy := (List.drop_eq_getElem_cons hlen2).symm.trans hx2
          injection hy with hy1 hy2
          rw [hd] at h
          simp [readExtS] at h
          refine ⟨2, by omega, ?_, ?_⟩
          · rw [← h.2, show idx + 2 = idx + 1 + 1 by omega, ← hy2]
          · simp [readExtIdx, show ¬buf.length ≤ idx + 1 by omega,
              List.getElem?_eq_getElem hlt, List.getElem?_eq_getElem hlen2,
              hx1, hy1, h.1]
    · by_cases h15 : v = 15
      · subst h15
        simp [readExtS] at h
      · simp [readExtS, h13, h14, h15] at h
        obtain ⟨rfl, h2⟩ := h
        exact ⟨0, by omega, by rw [← h2, Nat.add_zero],
          by simp [readExtIdx, h13, h14, h15]⟩

theorem parseOptsS_nil (n : Nat) (acc : OptMap) :
    parseOptsS [] n acc = .ok (acc, []) := by
  simp [parseOptsS]

theorem parseOptsS_marker (rest : List Nat) (n : Nat) (acc : OptMap) :
    parseOptsS (255 :: rest) n acc = .ok (acc, 255 :: rest) := by
  simp [parseOptsS]

theorem parseOptsS_err1 {byte : Nat} (hb : byte ≠ 255) {rest : List Nat}
    {e : CoapError}
    (h : readExtS (byte / 16) CoapError.InvalidOptionDelta rest = .error e)
    (n : Nat) (acc : OptMap) : parseOptsS (byte :: rest) n acc = .error e := by
  rw [parseOptsS.eq_def]
  dsimp only
  rw [if_neg hb]
  split
  · rename_i e1 heq
    rw [h] at heq
    injection heq with heq
    rw [heq]
  · rename_i delta rest1 heq
    rw [h] at heq
    cases heq

theorem parseOptsS_err2 {byte : Nat} (hb : byte ≠ 255) {rest rest1 : List Nat}
    {delta : Nat} {e : CoapError}
    (h1 : readExtS (byte / 16) CoapError.InvalidOptionDelta rest = .ok (delta, rest1))
    (h2 : readExtS (byte % 16) CoapError.InvalidOptionLength rest1 = .error e)
    (n : Nat) (acc : OptMap) : parseOptsS (byte :: rest) n acc = .error e := by
  rw [parseOptsS.eq_def]
  dsimp only
  rw [if_neg hb]
  split
  · rename_i e1 heq
    rw [h1] at heq
    cases heq
  · rename_i delta1 rest1a heq
    rw [h1] at heq
    injection heq with heq
    injection heq with hdl hr
    subst hdl
    subst hr
    split
    · rename_i e2 heq2
      rw [h2] at heq2
      injection heq2 with heq2
      rw [heq2]
    · rename_i len rest2 heq2
      rw [h2] at heq2
      cases heq2

theorem parseOptsS_len_err {byte : Nat} (hb : byte ≠ 255) {rest rest1 rest2 : List Nat}
    {delta len : Nat}
    (h1 : readExtS (byte / 16) CoapError.InvalidOptionDelta rest = .ok (delta, rest1))
    (h2 : readExtS (byte % 16) CoapError.InvalidOptionLength rest1 = .ok (len, rest2))
    (hl : rest2.length < len)
    (n : Nat) (acc : OptMap) :
    parseOptsS (byte :: rest) n acc = .error CoapError.InvalidOptionLength := by
  rw [parseOptsS.eq_def]
  dsimp only
  rw [if_neg hb]
  split
  · rename_i e1 heq
    rw [h1] at heq
    cases heq
  · rename_i delta1 rest1a heq
    rw [h1] at heq
    injection heq with heq
    injection heq with hdl hr
    subst hdl
    subst hr
    split
    · rename_i e2 heq2
      rw [h2] at heq2
      cases heq2
    · rename_i len1 rest2a heq2
      rw [h2] at heq2
      injection heq2 with heq2
      injection heq2 with hd2 hr2
      subst hd2
      subst hr2
      rw [if_pos hl]

theorem parseOptsS_step {byte : Nat} (hb : byte ≠ 255) {rest rest1 rest2 : List Nat}
    {delta len : Nat}
    (h1 : readExtS (byte / 16) CoapError.InvalidOptionDelta rest = .ok (delta, rest1))
    (h2 : readExtS (byte % 16) CoapError.InvalidOptionLength rest1 = .ok (len, rest2))
    (hl : len ≤ rest2.length)
    (n : Nat) (acc : OptMap) :
    parseOptsS (byte :: rest) n acc
      = parseOptsS (rest2.drop len) (n + delta)
          (mapAppend (n + delta) (rest2.take len) acc) := by
  rw [parseOptsS.eq_def]
  dsimp only
  rw [if_neg hb]
  split
  · rename_i e1 heq
    rw [h1] at heq
    cases heq
  · rename_i delta1 rest1a heq
    rw [h1] at heq
    injection heq with heq
    injection heq with hdl hr
    subst hdl
    subst hr
    split
    · rename_i e2 heq2
      rw [h2] at heq2
      cases heq2
    · rename_i len1 rest2a heq2
      rw [h2] at heq2
      injection heq2 with heq2
      injection heq2 with hd2 hr2
      subst hd2
      subst hr2
      rw [if_neg (by omega)]

theorem parseOptsIdx_at_end {buf : List Nat} {idx n : Nat} {acc : OptMap}
    (hge : buf.length ≤ idx) :
    parseOptsIdx buf idx n acc = some (.ok (acc, idx)) := by
  rw [parseOptsIdx.eq_def, dif_neg (by omega)]

theorem parseOpts_bridge (k : Nat) :
    ∀ (buf : List Nat) (idx n : Nat) (acc : OptMap),
      buf.length - idx ≤ k → idx ≤ buf.length →
      (∀ e, parseOptsS (buf.drop idx) n acc = .error e →
        parseOptsIdx buf idx n acc = some (.error e)) ∧
      (∀ o rest, parseOptsS (buf.drop idx) n acc = .ok (o, rest) →
        ∃ j, idx ≤ j ∧ j ≤ buf.length ∧ rest = buf.drop j ∧
          parseOptsIdx buf idx n acc = some (.ok (o, j))) := by
  induction k with
  | zero =>
    intro buf idx n acc hk hle
    have hnil : buf.drop idx = [] := List.drop_eq_nil_iff.mpr (by omega)
    constructor
    · intro e he
      rw [hnil, parseOptsS_nil] at he
      cases he
    · intro o rest ho
      rw [hnil, parseOptsS_nil] at ho
      injection ho with ho
      injection ho with ho1 ho2
      subst ho1
      subst ho2
      exact ⟨idx, le_refl _, hle, hnil.symm, parseOptsIdx_at_end (by omega)⟩
  | succ k ih =>
    intro buf idx n acc hk hle
    by_cases hlt : idx < buf.length
    case neg =>
      have hnil : buf.drop idx = [] := List.drop_eq_nil_iff.mpr (by omega)
      constructor
      · intro e he
        rw [hnil, parseOptsS_nil] at he
        cases he
      · intro o rest ho
        rw [hnil, parseOptsS_nil] at ho
        injection ho with ho
        injection ho with ho1 ho2
        subst ho1
        subst ho2
        exact ⟨idx, le_refl _, hle, hnil.symm, parseOptsIdx_at_end (by omega)⟩
    case pos =>
      have hd : buf.drop idx = buf[idx] :: buf.drop (idx + 1) :=
        List.drop_eq_getElem_cons hlt
      by_cases hmark : buf[idx] = 255
      · have hIdx : parseOptsIdx buf idx n acc = some (.ok (acc, idx)) := by
          rw [parseOptsIdx.eq_def, dif_pos hlt, List.getElem?_eq_getElem hlt]
          dsimp only
          rw [if_pos hmark]
        constructor
        · intro e he
          rw [hd, hmark, parseOptsS_marker] at he
          cases he
        · intro o rest ho
          rw [hd, hmark, parseOptsS_marker] at ho
          injection ho with ho
          injection ho with ho1 ho2
          subst ho1
          refine ⟨idx, le_refl _, by omega, ?_, hIdx⟩
          rw [← ho2, hd, hmark]
      · cases hr1 : readExtS (buf[idx] / 16) CoapError.InvalidOptionDelta
            (buf.drop (idx + 1)) with
        | error e1 =>
          have hIdx : parseOptsIdx buf idx n acc = some (.error e1) := by
            rw [parseOptsIdx.eq_def, dif_pos hlt, List.getElem?_eq_getElem hlt]
            dsimp only
            rw [if_neg hmark, readExt_bridge_err hr1]
          constructor
          · intro e he
            rw [hd, parseOptsS_err1 hmark hr1] at he
            injection he with he
            rw [hIdx, he]
          · intro o rest ho
            rw [hd, parseOptsS_err1 hmark hr1] at ho
            cases ho
        | ok dr =>
          obtain ⟨delta, rest1⟩ := dr
          obtain ⟨c1, hc1le, hrest1, hri1⟩ :=
            readExt_bridge_ok (show idx + 1 ≤ buf.length by omega) hr1
          subst hrest1
          cases hr2 : readExtS (buf[idx] % 16) CoapError.InvalidOptionLength
              (buf.drop (idx + 1 + c1)) with
          | error e2 =>
            have hIdx : parseOptsIdx buf idx n acc = some (.error e2) := by
              rw [parseOptsIdx.eq_def, dif_pos hlt, List.getElem?_eq_getElem hlt]
              dsimp only
              rw [if_neg hmark, hri1]
              dsimp only
              rw [readExt_bridge_err hr2]
            constructor
            · intro e he
              rw [hd, parseOptsS_err2 hmark hr1 hr2] at he
              injection he with he
              rw [hIdx, he]
            · intro o rest ho
              rw [hd, parseOptsS_err2 hmark hr1 hr2] at ho
              cases ho
          | ok lr =>
            obtain ⟨len, rest2⟩ := lr
            obtain ⟨c2, hc2le, hrest2, hri2⟩ :=
              readExt_bridge_ok (show idx + 1 + c1 ≤ buf.length by omega) hr2
            subst hrest2
            have hlen2 : (buf.drop (idx + 1 + c1 + c2)).length
                = buf.length - (idx + 1 + c1 + c2) := by
              simp
            by_cases hbig : (buf.drop (idx + 1 + c1 + c2)).length < len
            · have hIdx : parseOptsIdx buf idx n acc
                  = some (.error CoapError.InvalidOptionLength) := by
                rw [parseOptsIdx.eq_def, dif_pos hlt, List.getElem?_eq_getElem hlt]
                dsimp only
                rw [if_neg hmark, hri1]
                dsimp only
                rw [hri2]
                dsimp only
                rw [if_pos (by omega)]
              constructor
              · intro e he
                rw [hd, parseOptsS_len_err hmark hr1 hr2 hbig] at he
                injection he with he
                rw [hIdx, he]
              · intro o rest ho
                rw [hd, parseOptsS_len_err hmark hr1 hr2 hbig] at ho
                cases ho
            · have hfit : idx + 1 + c1 + c2 + len ≤ buf.length := by omega
              have hdd : (buf.drop (idx + 1 + c1 + c2)).drop len
                  = buf.drop (idx + 1 + c1 + c2 + len) :=
                List.drop_drop len (idx + 1 + c1 + c2) buf
              have hsl : sliceChecked buf (idx + 1 + c1 + c2)
                  (idx + 1 + c1 + c2 + len)
                  = some ((buf.drop (idx + 1 + c1 + c2)).take len) := by
                unfold sliceChecked
                rw [if_pos ⟨by omega, hfit⟩, List.drop_take]
                have harith : idx + 1 + c1 + c2 + len - (idx + 1 + c1 + c2) = len := by
                  omega
                rw [harith]
              have hIdxStep : parseOptsIdx buf idx n acc
                  = parseOptsIdx buf (idx + 1 + c1 + c2 + len) (n + delta)
                      (mapAppend (n + delta)
                        ((buf.drop (idx + 1 + c1 + c2)).take len) acc) := by
                rw [parseOptsIdx.eq_def, dif_pos hlt, List.getElem?_eq_getElem hlt]
                dsimp only
                rw [if_neg hmark, hri1]
                dsimp only
                rw [hri2]
                dsimp only
                rw [if_neg (by omega), hsl]
              have hSStep := parseOptsS_step hmark hr1 hr2
                (by omega : len ≤ (buf.drop (idx + 1 + c1 + c2)).length) n acc
              obtain ⟨ihErr, ihOk⟩ := ih buf (idx + 1 + c1 + c2 + len) (n + delta)
                (mapAppend (n + delta) ((buf.drop (idx + 1 + c1 + c2)).take len) acc)
                (by omega) (by omega)
              constructor
              · intro e he
                rw [hd, hSStep, hdd] at he
                rw [hIdxStep]
                exact ihErr e he
              · intro o rest ho
                rw [hd, hSStep, hdd] at ho
                obtain ⟨j, hj1, hj2, hj3, hj4⟩ := ihOk o rest ho
                refine ⟨j, by omega, hj2, hj3, ?_⟩
                rw [hIdxStep, hj4]

theorem from_bytes_eq_struct (buf : List Nat) :
    Packet.from_bytes buf = some (Packet.from_bytesS buf) := by
  unfold Packet.from_bytes Packet.from_bytesS
  by_cases h4 : buf.length < 4
  · rw [if_pos h4, if_pos h4]
  · rw [if_neg h4, if_neg h4]
    dsimp only
    by_cases htkl :
        (headerFromRaw (buf.getD 0 0) (buf.getD 1 0) (buf.getD 2 0) (buf.getD 3 0)).tkl > 8
    · rw [if_pos htkl, if_pos htkl]
    · rw [if_neg htkl, if_neg htkl]
      by_cases hos :
          4 + (headerFromRaw (buf.getD 0 0) (buf.getD 1 0) (buf.getD 2 0) (buf.getD 3 0)).tkl
            > buf.length
      · rw [if_pos hos, if_pos hos]
      · rw [if_neg hos, if_neg hos]
        have hsl : sliceChecked buf 4
            (4 + (headerFromRaw (buf.getD 0 0) (buf.getD 1 0) (buf.getD 2 0)
              (buf.getD 3 0)).tkl)
            = some ((buf.drop 4).take
                (headerFromRaw (buf.getD 0 0) (buf.getD 1 0) (buf.getD 2 0)
                  (buf.getD 3 0)).tkl) := by
          unfold sliceChecked
          rw [if_pos ⟨by omega, by omega⟩, List.drop_take]
          have harith : 4 +
              (headerFromRaw (buf.getD 0 0) (buf.getD 1 0) (buf.getD 2 0)
                (buf.getD 3 0)).tkl - 4
              = (headerFromRaw (buf.getD 0 0) (buf.getD 1 0) (buf.getD 2 0)
                  (buf.getD 3 0)).tkl := by omega
          rw [harith]
        rw [hsl]
        dsimp only
        obtain ⟨bErr, bOk⟩ := parseOpts_bridge buf.length buf
          (4 + (headerFromRaw (buf.getD 0 0) (buf.getD 1 0) (buf.getD 2 0)
            (buf.getD 3 0)).tkl) 0 [] (by omega) (by omega)
        cases hp : parseOptsS (buf.drop
            (4 + (headerFromRaw (buf.getD 0 0) (buf.getD 1 0) (buf.getD 2 0)
              (buf.getD 3 0)).tkl)) 0 [] with
        | error e =>
          rw [bErr e hp]
        | ok pr =>
          obtain ⟨o, rest⟩ := pr
          obtain ⟨j, hj1, hj2, hj3, hj4⟩ := bOk o rest hp
          rw [hj4]
          dsimp only
          by_cases hjlt : j < buf.length
          · rw [if_pos hjlt]
            have hslp : sliceChecked buf (j + 1) buf.length
                = some (buf.drop (j + 1)) := by
              unfold sliceChecked
              rw [if_pos ⟨by omega, le_refl _⟩, List.take_length]
            rw [hslp]
            dsimp only
            rw [hj3, List.tail_drop]
          · rw [if_neg hjlt]
            have hrest : rest = [] := by
              rw [hj3, List.drop_eq_nil_iff.mpr (by omega)]
            rw [hrest]
            rfl

/-! ### Encode/decode inversion for the option section -/

theorem readExtS_inv {v : Nat} (hv : v < 65536) (err : CoapError) (rest : List Nat) :
    readExtS (nibbleCode v) err (extBytesOf v ++ rest) = .ok (v, rest) := by
  unfold nibbleCode extBytesOf readExtS
  by_cases h12 : v ≤ 12
  · rw [if_pos h12, if_pos h12]
    rw [if_neg (by omega), if_neg (by omega), if_neg (by omega)]
    rw [List.nil_append]
  · by_cases h269 : v < 269
    · rw [if_neg h12, if_pos h269, if_neg h12, if_pos h269]
      rw [if_pos rfl]
      simp only [List.cons_append]
      have harith : (v - 13) % 256 + 13 = v := by omega
      rw [harith, List.nil_append]
    · rw [if_neg h12, if_neg h269, if_neg h12, if_neg h269]
      rw [if_neg (by omega), if_pos rfl]
      simp only [List.cons_append]
      have harith : ((v - 269) % 65536 / 256 * 256 + (v - 269) % 256 + 269) % 65536
          = v := by omega
      rw [harith, List.nil_append]

theorem parseOptsS_record {delta : Nat} (hdl : delta < 65536) {v : List Nat}
    (hvl : v.length < 65536) (tail : List Nat) (n : Nat) (acc : OptMap) :
    parseOptsS (optionRecordBytes delta v ++ tail) n acc
      = parseOptsS tail (n + delta) (mapAppend (n + delta) v acc) := by
  have hnd : nibbleCode delta ≤ 14 := by unfold nibbleCode; split_ifs <;> omega
  have hnl : nibbleCode v.length ≤ 14 := by unfold nibbleCode; split_ifs <;> omega
  have hbyte : nibbleCode delta * 16 + nibbleCode v.length ≠ 255 := by omega
  have hdiv : (nibbleCode delta * 16 + nibbleCode v.length) / 16 = nibbleCode delta := by
    omega
  have hmod : (nibbleCode delta * 16 + nibbleCode v.length) % 16
      = nibbleCode v.length := by omega
  unfold optionRecordBytes
  rw [List.cons_append]
  have h1 : readExtS ((nibbleCode delta * 16 + nibbleCode v.length) / 16)
      CoapError.InvalidOptionDelta
      ((extBytesOf delta ++ extBytesOf v.length ++ v) ++ tail)
      = .ok (delta, extBytesOf v.length ++ (v ++ tail)) := by
    rw [hdiv, List.append_assoc, List.append_assoc]
    exact readExtS_inv hdl _ _
  have h2 : readExtS ((nibbleCode delta * 16 + nibbleCode v.length) % 16)
      CoapError.InvalidOptionLength (extBytesOf v.length ++ (v ++ tail))
      = .ok (v.length, v ++ tail) := by
    rw [hmod]
    exact readExtS_inv hvl _ _
  have hfit : v.length ≤ (v ++ tail).length := by simp
  rw [parseOptsS_step hbyte h1 h2 hfit]
  rw [List.take_left, List.drop_left]

theorem mapAppend_new {k : Nat} {x : List Nat} {m : OptMap}
    (h : ∀ p ∈ m, p.1 < k) :
    mapAppend k x m = m ++ [(k, [x])] := by
  induction m with
  | nil => rfl
  | cons hd t ihm =>
    obtain ⟨k0, v0⟩ := hd
    have hk0 : k0 < k := h (k0, v0) (by simp)
    unfold mapAppend
    rw [if_neg (by omega), if_neg (by omega)]
    rw [ihm (fun p hp => h p (by simp [hp]))]
    simp

theorem mapAppend_last {k : Nat} {x : List Nat} {cur : List (List Nat)} {m : OptMap}
    (h : ∀ p ∈ m, p.1 < k) :
    mapAppend k x (m ++ [(k, cur)]) = m ++ [(k, cur ++ [x])] := by
  induction m with
  | nil => simp [mapAppend]
  | cons hd t ihm =>
    obtain ⟨k0, v0⟩ := hd
    have hk0 : k0 < k := h (k0, v0) (by simp)
    simp only [List.cons_append]
    unfold mapAppend
    rw [if_neg (by omega), if_neg (by omega)]
    rw [ihm (fun p hp => h p (by simp [hp]))]

theorem encodeValuesFor_snd {k : Nat} :
    ∀ (vs : List (List Nat)) (prev : Nat), prev ≤ k → vs ≠ [] →
      (encodeValuesFor k vs prev).2 = k := by
  intro vs
  induction vs with
  | nil => intro prev hle hne; exact absurd rfl hne
  | cons v vs ihv =>
    intro prev hle hne
    unfold encodeValuesFor
    dsimp only
    cases vs with
    | nil =>
      unfold encodeValuesFor
      dsimp only
      omega
    | cons w ws =>
      rw [show prev + (k - prev) = k by omega]
      exact ihv k (le_refl k) (by simp)

theorem encodeValues_rest_parse {k : Nat} (hk : k < 65536) :
    ∀ (vs : List (List Nat)) (cur : List (List Nat)) (accPre : OptMap)
      (tail : List Nat),
      (∀ p ∈ accPre, p.1 < k) →
      (∀ v ∈ vs, v.length < 65536) →
      parseOptsS ((encodeValuesFor k vs k).1 ++ tail) k (accPre ++ [(k, cur)])
        = parseOptsS tail k (accPre ++ [(k, cur ++ vs)]) := by
  intro vs
  induction vs with
  | nil =>
    intro cur accPre tail hpre hv
    simp [encodeValuesFor]
  | cons v vs ihv =>
    intro cur accPre tail hpre hv
    unfold encodeValuesFor
    dsimp only
    rw [Nat.sub_self, Nat.add_zero]
    rw [List.append_assoc, parseOptsS_record (by omega) (hv v (by simp)),
      Nat.add_zero, mapAppend_last hpre]
    rw [ihv (cur ++ [v]) accPre tail hpre (fun w hw => hv w (by simp [hw]))]
    simp

theorem encodeValuesFor_full_parse {k prev : Nat} (hprev : prev ≤ k)
    (hk : k < 65536) {v : List Nat} {vs : List (List Nat)}
    (hv : ∀ w ∈ v :: vs, w.length < 65536)
    {acc : OptMap} (hacc : ∀ p ∈ acc, p.1 < k) (tail : List Nat) :
    parseOptsS ((encodeValuesFor k (v :: vs) prev).1 ++ tail) prev acc
      = parseOptsS tail k (acc ++ [(k, v :: vs)]) := by
  unfold encodeValuesFor
  dsimp only
  rw [List.append_assoc, parseOptsS_record (by omega) (hv v (by simp))]
  rw [show prev + (k - prev) = k by omega]
  rw [mapAppend_new hacc]
  rw [encodeValues_rest_parse hk vs [v] acc tail hacc
    (fun w hw => hv w (by simp [hw]))]
  simp

theorem KeysSortedFrom_mono {lb lb2 : Nat} (h : lb2 ≤ lb) :
    ∀ {m : OptMap}, KeysSortedFrom lb m → KeysSortedFrom lb2 m := by
  intro m hm
  cases m with
  | nil => trivial
  | cons hd t =>
    obtain ⟨k, v⟩ := hd
    exact ⟨le_trans h hm.1, hm.2⟩

theorem KeysSortedFrom_le {lb : Nat} :
    ∀ {m : OptMap}, KeysSortedFrom lb m → ∀ q ∈ m, lb ≤ q.1 := by
  intro m
  induction m with
  | nil => intro _ q hq; cases hq
  | cons hd t ihm =>
    obtain ⟨k, v⟩ := hd
    intro hm q hq
    rcases List.mem_cons.mp hq with rfl | hq2
    · exact hm.1
    · have hlb : lb ≤ k + 1 := by
        have := hm.1
        omega
      have := ihm (KeysSortedFrom_mono hlb hm.2) q hq2
      omega

theorem encodeOptions_parse :
    ∀ (opts : OptMap) (prev : Nat) (acc : OptMap) (rest : List Nat),
      KeysSortedFrom prev opts →
      (∀ p ∈ opts, p.1 < 65536) →
      (∀ p ∈ opts, p.2 ≠ [] ∧ ∀ v ∈ p.2, v.length < 65536) →
      (∀ p ∈ acc, ∀ q ∈ opts, p.1 < q.1) →
      (rest = [] ∨ ∃ t, rest = 255 :: t) →
      parseOptsS (encodeOptions opts prev ++ rest) prev acc
        = .ok (acc ++ opts, rest) := by
  intro opts
  induction opts with
  | nil =>
    intro prev acc rest hs hk hv hacc hrest
    rcases hrest with rfl | ⟨t, rfl⟩
    · simp [encodeOptions, parseOptsS_nil]
    · simp [encodeOptions, parseOptsS_marker]
  | cons hd opts ihopts =>
    intro prev acc rest hs hk hv hacc hrest
    obtain ⟨k, vs⟩ := hd
    obtain ⟨hpk, hs2⟩ := hs
    obtain ⟨hne, hvlen⟩ := hv (k, vs) (by simp)
    cases vs with
    | nil => exact absurd rfl hne
    | cons v vs2 =>
      unfold encodeOptions
      dsimp only
      rw [encodeValuesFor_snd (v :: vs2) prev hpk (by simp)]
      rw [List.append_assoc]
      rw [encodeValuesFor_full_parse hpk (hk (k, v :: vs2) (by simp)) hvlen
        (fun p hp => hacc p hp (k, v :: vs2) (by simp)) _]
      rw [ihopts k (acc ++ [(k, v :: vs2)]) rest
        (KeysSortedFrom_mono (by omega) hs2)
        (fun p hp => hk p (by simp [hp]))
        (fun p hp => hv p (by simp [hp]))
        ?_ hrest]
      · simp
      · intro p hp q hq
        rcases List.mem_append.mp hp with hp1 | hp2
        · exact hacc p hp1 q (by simp [hq])
        · have hq2 := KeysSortedFrom_le hs2 q hq
          have : p = (k, v :: vs2) := by simpa using hp2
          rw [this]
          dsimp only
          omega

/-! ### Invariants of packets built via the programmatic surface -/

theorem mapAppend_sorted {k : Nat} {x : List Nat} :
    ∀ {m : OptMap} {lb : Nat}, KeysSortedFrom lb m → lb ≤ k →
      KeysSortedFrom lb (mapAppend k x m) := by
  intro m
  induction m with
  | nil =>
    intro lb _ hlb
    exact ⟨hlb, trivial⟩
  | cons hd t ihm =>
    intro lb hm hlb
    obtain ⟨k0, v0⟩ := hd
    unfold mapAppend
    by_cases h1 : k < k0
    · rw [if_pos h1]
      exact ⟨hlb, by omega, hm.2⟩
    · rw [if_neg h1]
      by_cases h2 : k = k0
      · rw [if_pos h2]
        exact ⟨hm.1, hm.2⟩
      · rw [if_neg h2]
        exact ⟨hm.1, ihm hm.2 (by omega)⟩

theorem mapAppend_keys {k bound : Nat} {x : List Nat} :
    ∀ {m : OptMap}, (∀ q ∈ m, q.1 ≤ bound) → k ≤ bound →
      ∀ q ∈ mapAppend k x m, q.1 ≤ bound := by
  intro m
  induction m with
  | nil =>
    intro _ hk q hq
    simp [mapAppend] at hq
    rw [hq]
    exact hk
  | cons hd t ihm =>
    intro hall hk q hq
    obtain ⟨k0, v0⟩ := hd
    unfold mapAppend at hq
    by_cases h1 : k < k0
    · rw [if_pos h1] at hq
      rcases List.mem_cons.mp hq with rfl | hq2
      · exact hk
      · exact hall q hq2
    · rw [if_neg h1] at hq
      by_cases h2 : k = k0
      · rw [if_pos h2] at hq
        rcases List.mem_cons.mp hq with rfl | hq2
        · exact h2 ▸ hk
        · exact hall _ (by simp [hq2])
      · rw [if_neg h2] at hq
        rcases List.mem_cons.mp hq with rfl | hq2
        · exact hall _ (by simp)
        · exact ihm (fun r hr => hall r (by simp [hr])) hk _ hq2

theorem mapInsert_sorted {k : Nat} {x : List (List Nat)} :
    ∀ {m : OptMap} {lb : Nat}, KeysSortedFrom lb m → lb ≤ k →
      KeysSortedFrom lb (mapInsert k x m) := by
  intro m
  induction m with
  | nil =>
    intro lb _ hlb
    exact ⟨hlb, trivial⟩
  | cons hd t ihm =>
    intro lb hm hlb
    obtain ⟨k0, v0⟩ := hd
    unfold mapInsert
    by_cases h1 : k < k0
    · rw [if_pos h1]
      exact ⟨hlb, by omega, hm.2⟩
    · rw [if_neg h1]
      by_cases h2 : k = k0
      · rw [if_pos h2]
        exact ⟨by omega, h2 ▸ hm.2⟩
      · rw [if_neg h2]
        exact ⟨hm.1, ihm hm.2 (by omega)⟩

theorem mapInsert_keys {k bound : Nat} {x : List (List Nat)} :
    ∀ {m : OptMap}, (∀ q ∈ m, q.1 ≤ bound) → k ≤ bound →
      ∀ q ∈ mapInsert k x m, q.1 ≤ bound := by
  intro m
  induction m with
  | nil =>
    intro _ hk q hq
    simp [mapInsert] at hq
    rw [hq]
    exact hk
  | cons hd t ihm =>
    intro hall hk q hq
    obtain ⟨k0, v0⟩ := hd
    unfold mapInsert at hq
    by_cases h1 : k < k0
    · rw [if_pos h1] at hq
      rcases List.mem_cons.mp hq with rfl | hq2
      · exact hk
      · exact hall q hq2
    · rw [if_neg h1] at hq
      by_cases h2 : k = k0
      · rw [if_pos h2] at hq
        rcases List.mem_cons.mp hq with rfl | hq2
        · exact hk
        · exact hall _ (by simp [hq2])
      · rw [if_neg h2] at hq
        rcases List.mem_cons.mp hq with rfl | hq2
        · exact hall _ (by simp)
        · exact ihm (fun r hr => hall r (by simp [hr])) hk _ hq2

theorem get_option_number_le (tp : CoapOption) : tp.get_option_number ≤ 258 := by
  cases tp <;> simp [CoapOption.get_option_number]

/-- The structural invariants every surface-built packet satisfies: header
fields within their wire ranges, the token-length field synchronized with the
token, and a sorted option table whose keys are registered option numbers. -/
theorem Built_inv {p : Packet} (h : Built p) :
    p.header.version < 4 ∧ p.header.mtype < 4 ∧ p.header.code < 256 ∧
      p.header.messageId < 65536 ∧ p.header.tkl = p.token.length ∧
      p.token.length ≤ 8 ∧ KeysSortedFrom 0 p.options ∧
      (∀ q ∈ p.options, q.1 ≤ 258) := by
  induction h with
  | new =>
    refine ⟨by decide, by decide, by decide, by decide, by decide, by decide,
      trivial, ?_⟩
    intro q hq
    cases hq
  | setToken t hb hlen hbytes ih =>
    obtain ⟨i1, i2, i3, i4, i5, i6, i7, i8⟩ := ih
    exact ⟨i1, i2, i3, i4, by simp [Packet.set_token, Header.set_token_length]; omega,
      hlen, i7, i8⟩
  | addOption tp v hb hbytes ih =>
    obtain ⟨i1, i2, i3, i4, i5, i6, i7, i8⟩ := ih
    refine ⟨i1, i2, i3, i4, i5, i6, ?_, ?_⟩
    · exact mapAppend_sorted i7 (Nat.zero_le _)
    · exact mapAppend_keys i8 (get_option_number_le tp)
  | setOption tp vs hb hbytes ih =>
    obtain ⟨i1, i2, i3, i4, i5, i6, i7, i8⟩ := ih
    refine ⟨i1, i2, i3, i4, i5, i6, ?_, ?_⟩
    · exact mapInsert_sorted i7 (Nat.zero_le _)
    · exact mapInsert_keys i8 (get_option_number_le tp)
  | setPayload pl hb hbytes ih =>
    obtain ⟨i1, i2, i3, i4, i5, i6, i7, i8⟩ := ih
    exact ⟨i1, i2, i3, i4, i5, i6, i7, i8⟩
  | setVersion v hb ih =>
    obtain ⟨i1, i2, i3, i4, i5, i6, i7, i8⟩ := ih
    exact ⟨by simp [Header.set_version]; omega, i2, i3, i4, i5, i6, i7, i8⟩
  | setType t hb ih =>
    obtain ⟨i1, i2, i3, i4, i5, i6, i7, i8⟩ := ih
    exact ⟨i1, by simp [Header.set_type]; omega, i3, i4, i5, i6, i7, i8⟩
  | setMessageId m hb ih =>
    obtain ⟨i1, i2, i3, i4, i5, i6, i7, i8⟩ := ih
    exact ⟨i1, i2, i3, by simp [Header.set_message_id]; omega, i5, i6, i7, i8⟩
  | setCode c hb ih =>
    obtain ⟨i1, i2, i3, i4, i5, i6, i7, i8⟩ := ih
    exact ⟨i1, i2, by simp [Packet.set_code]; omega, i4, i5, i6, i7, i8⟩

theorem optionRecordBytes_ge (delta : Nat) (v : List Nat) :
    v.length ≤ (optionRecordBytes delta v).length := by
  unfold optionRecordBytes
  simp only [List.length_cons, List.length_append]
  omega

theorem encodeValuesFor_value_le {k : Nat} :
    ∀ (vs : List (List Nat)) (prev : Nat) (v : List Nat), v ∈ vs →
      v.length ≤ (encodeValuesFor k vs prev).1.length := by
  intro vs
  induction vs with
  | nil =>
    intro prev v hv
    cases hv
  | cons w ws ihv =>
    intro prev v hv
    unfold encodeValuesFor
    dsimp only
    rw [List.length_append]
    rcases List.mem_cons.mp hv with rfl | hv2
    · have := optionRecordBytes_ge (k - prev) v
      omega
    · have := ihv (prev + (k - prev)) v hv2
      omega

theorem encodeOptions_value_le :
    ∀ (opts : OptMap) (prev : Nat) (q : Nat × List (List Nat)) (v : List Nat),
      q ∈ opts → v ∈ q.2 → v.length ≤ (encodeOptions opts prev).length := by
  intro opts
  induction opts with
  | nil =>
    intro prev q v hq hv
    cases hq
  | cons hd t iho =>
    intro prev q v hq hv
    obtain ⟨k, vs⟩ := hd
    unfold encodeOptions
    dsimp only
    rw [List.length_append]
    rcases List.mem_cons.mp hq with rfl | hq2
    · have := @encodeValuesFor_value_le k vs prev v hv
      omega
    · have := iho (encodeValuesFor k vs prev).2 q v hq2 hv
      omega

theorem headerFromRaw_serialize {h : Header} (hv : h.version < 4)
    (ht : h.mtype < 4) (hk : h.tkl < 16) (hc : h.code < 256)
    (hm : h.messageId < 65536) (rest : List Nat) :
    headerFromRaw ((serializeHeader h ++ rest).getD 0 0)
      ((serializeHeader h ++ rest).getD 1 0)
      ((serializeHeader h ++ rest).getD 2 0)
      ((serializeHeader h ++ rest).getD 3 0) = h := by
  obtain ⟨v, t, k, c, i⟩ := h
  simp only at hv ht hk hc hm
  simp only [serializeHeader, headerFromRaw, List.cons_append, List.nil_append,
    List.getD_cons_zero, List.getD_cons_succ, Header.mk.injEq]
  refine ⟨by omega, by omega, by omega, by omega, by omega⟩

/-- Decoding inverts encoding: the structural decoder applied to the bytes
to_bytes assembles returns the packet unchanged, under the invariants of
surface-built packets, provided every option key has at least one value and
the payload is empty whenever the message class is Empty. -/
theorem from_bytesS_encoded {p : Packet}
    (hv : p.header.version < 4) (ht : p.header.mtype < 4)
    (hc : p.header.code < 256) (hm : p.header.messageId < 65536)
    (htkl : p.header.tkl = p.token.length) (htlen : p.token.length ≤ 8)
    (hsorted : KeysSortedFrom 0 p.options)
    (hkeys : ∀ q ∈ p.options, q.1 < 65536)
    (hvals : ∀ q ∈ p.options, q.2 ≠ [] ∧ ∀ v ∈ q.2, v.length < 65536)
    (hcp : p.header.code ≠ 0 ∨ p.payload = []) :
    Packet.from_bytesS (encodedBytes p) = .ok p := by
  have hlen4 : (serializeHeader p.header).length = 4 := by
    simp [serializeHeader]
  have hbseq : encodedBytes p
      = serializeHeader p.header
          ++ (p.token ++ (optionsBytesOf p ++ payloadPart p)) := by
    unfold encodedBytes
    simp [List.append_assoc]
  have hblen : 4 + p.token.length ≤ (encodedBytes p).length := by
    rw [hbseq]
    simp [hlen4]
  have hhdr : headerFromRaw ((encodedBytes p).getD 0 0)
      ((encodedBytes p).getD 1 0) ((encodedBytes p).getD 2 0)
      ((encodedBytes p).getD 3 0) = p.header := by
    rw [hbseq]
    exact headerFromRaw_serialize hv ht (by omega) hc hm _
  have hpp : payloadPart p = [] ∨ ∃ t, payloadPart p = 255 :: t := by
    unfold payloadPart
    split_ifs
    · exact Or.inr ⟨p.payload, rfl⟩
    · exact Or.inl rfl
  unfold Packet.from_bytesS
  rw [if_neg (by omega)]
  dsimp only
  rw [hhdr]
  rw [if_neg (by omega)]
  rw [if_neg (by omega)]
  have hdrop4 : (encodedBytes p).drop 4 = p.token ++ (optionsBytesOf p ++ payloadPart p) := by
    rw [hbseq, ← hlen4, List.drop_left]
  have htok : ((encodedBytes p).drop 4).take p.header.tkl = p.token := by
    rw [hdrop4, htkl, List.take_left]
  have hdropAll : (encodedBytes p).drop (4 + p.header.tkl)
      = optionsBytesOf p ++ payloadPart p := by
    rw [← List.drop_drop, hdrop4, htkl, List.drop_left]
  rw [htok, hdropAll]
  unfold optionsBytesOf
  rw [encodeOptions_parse p.options 0 [] (payloadPart p) hsorted hkeys hvals
    (fun q hq => absurd hq (List.not_mem_nil q)) hpp]
  dsimp only
  rw [List.nil_append]
  have hpay : (payloadPart p).tail = p.payload := by
    unfold payloadPart
    split_ifs with hcond
    · rfl
    · have hpl : p.payload = [] := by
        rcases hcp with h0 | h0
        · by_contra hne
          exact hcond ⟨h0, hne⟩
        · exact h0
      rw [hpl]
      rfl
  rw [hpay]

/-! ### Further helper lemmas -/

theorem parseOptsS_rest_shape :
    ∀ (k : Nat) (l : List Nat) (n : Nat) (acc o : OptMap) (rest : List Nat),
      l.length ≤ k → parseOptsS l n acc = .ok (o, rest) →
      rest = [] ∨ ∃ t, rest = 255 :: t := by
  intro k
  induction k with
  | zero =>
    intro l n acc o rest hk h
    have hnil : l = [] := List.length_eq_zero.mp (by omega)
    subst hnil
    rw [parseOptsS_nil] at h
    injection h with h
    injection h with h1 h2
    exact Or.inl h2.symm
  | succ k ih =>
    intro l n acc o rest hk h
    cases l with
    | nil =>
      rw [parseOptsS_nil] at h
      injection h with h
      injection h with h1 h2
      exact Or.inl h2.symm
    | cons byte tl =>
      by_cases hm : byte = 255
      · subst hm
        rw [parseOptsS_marker] at h
        injection h with h
        injection h with h1 h2
        exact Or.inr ⟨tl, h2.symm⟩
      · cases hr1 : readExtS (byte / 16) CoapError.InvalidOptionDelta tl with
        | error e1 =>
          rw [parseOptsS_err1 hm hr1] at h
          cases h
        | ok dr =>
          obtain ⟨delta, rest1⟩ := dr
          cases hr2 : readExtS (byte % 16) CoapError.InvalidOptionLength rest1 with
          | error e2 =>
            rw [parseOptsS_err2 hm hr1 hr2] at h
            cases h
          | ok lr =>
            obtain ⟨len, rest2⟩ := lr
            by_cases hbig : rest2.length < len
            · rw [parseOptsS_len_err hm hr1 hr2 hbig] at h
              cases h
            · rw [parseOptsS_step hm hr1 hr2 (by omega)] at h
              have t1 := readExtS_length hr1
              have t2 := readExtS_length hr2
              refine ih (rest2.drop len) (n + delta)
                (mapAppend (n + delta) (rest2.take len) acc) o rest ?_ h
              simp only [List.length_cons] at hk
              simp only [List.length_drop]
              omega

theorem readExtS_err15 {err : CoapError} (l : List Nat) :
    readExtS 15 err l = .error err := by
  simp [readExtS]

theorem readExtS_err_classify {v : Nat} (hv : v ≠ 15) {err e : CoapError}
    {l : List Nat} (h : readExtS v err l = .error e) :
    e = CoapError.InvalidOptionLength := by
  unfold readExtS at h
  split_ifs at h
  · cases l with
    | nil =>
      injection h with h
      exact h.symm
    | cons b t => cases h
  · cases l with
    | nil =>
      injection h with h
      exact h.symm
    | cons b0 t =>
      cases t with
      | nil =>
        injection h with h
        exact h.symm
      | cons b1 t2 => cases h

theorem mapGet_cons (k0 : Nat) (v0 : List (List Nat)) (t : OptMap) (key : Nat) :
    mapGet ((k0, v0) :: t) key = if key = k0 then some v0 else mapGet t key := rfl

theorem mapAppend_cons (k : Nat) (x : List Nat) (k0 : Nat) (v0 : List (List Nat))
    (t : OptMap) :
    mapAppend k x ((k0, v0) :: t)
      = if k < k0 then (k, [x]) :: (k0, v0) :: t
        else if k = k0 then (k0, v0 ++ [x]) :: t
        else (k0, v0) :: mapAppend k x t := rfl

theorem mapInsert_cons (k : Nat) (vs : List (List Nat)) (k0 : Nat)
    (v0 : List (List Nat)) (t : OptMap) :
    mapInsert k vs ((k0, v0) :: t)
      = if k < k0 then (k, vs) :: (k0, v0) :: t
        else if k = k0 then (k, vs) :: t
        else (k0, v0) :: mapInsert k vs t := rfl

theorem mapClear_cons (k : Nat) (k0 : Nat) (v0 : List (List Nat)) (t : OptMap) :
    mapClear k ((k0, v0) :: t)
      = if k = k0 then (k0, []) :: t else (k0, v0) :: mapClear k t := rfl

theorem mapGet_none_of_lt {key : Nat} :
    ∀ {m : OptMap} {lb : Nat}, KeysSortedFrom lb m → key < lb →
      mapGet m key = none := by
  intro m
  induction m with
  | nil => intro lb _ _; rfl
  | cons hd t ihm =>
    intro lb hs hlt
    obtain ⟨k0, v0⟩ := hd
    have h01 := hs.1
    rw [mapGet_cons, if_neg (by omega : ¬key = k0)]
    exact ihm hs.2 (by omega)

theorem mapGet_mapAppend_self {k : Nat} {x : List Nat} :
    ∀ {m : OptMap}, KeysSortedFrom 0 m →
      mapGet (mapAppend k x m) k = some ((mapGet m k).getD [] ++ [x]) := by
  intro m
  induction m with
  | nil =>
    intro _
    simp [mapAppend, mapGet]
  | cons hd t ihm =>
    intro hs
    obtain ⟨k0, v0⟩ := hd
    rw [mapAppend_cons, mapGet_cons]
    by_cases h1 : k < k0
    · rw [if_pos h1]
      rw [mapGet_cons, if_pos rfl]
      rw [if_neg (by omega), mapGet_none_of_lt hs.2 (by omega)]
      rfl
    · rw [if_neg h1]
      by_cases h2 : k = k0
      · rw [if_pos h2, if_pos h2]
        rw [mapGet_cons, if_pos h2]
        rfl
      · rw [if_neg h2, if_neg h2]
        rw [mapGet_cons, if_neg h2]
        exact ihm (KeysSortedFrom_mono (Nat.zero_le _) hs.2)

theorem mapGet_mapAppend_other {k k2 : Nat} (hne : k2 ≠ k) {x : List Nat} :
    ∀ (m : OptMap), mapGet (mapAppend k x m) k2 = mapGet m k2 := by
  intro m
  induction m with
  | nil =>
    simp [mapAppend, mapGet, hne]
  | cons hd t ihm =>
    obtain ⟨k0, v0⟩ := hd
    rw [mapAppend_cons]
    by_cases h1 : k < k0
    · rw [if_pos h1]
      rw [mapGet_cons, if_neg hne]
    · rw [if_neg h1]
      by_cases h2 : k = k0
      · rw [if_pos h2]
        rw [mapGet_cons, mapGet_cons, if_neg (by omega), if_neg (by omega)]
      · rw [if_neg h2]
        rw [mapGet_cons, mapGet_cons]
        by_cases h3 : k2 = k0
        · rw [if_pos h3, if_pos h3]
        · rw [if_neg h3, if_neg h3]
          exact ihm

theorem mapGet_mapInsert_self {k : Nat} {vs : List (List Nat)} :
    ∀ (m : OptMap), mapGet (mapInsert k vs m) k = some vs := by
  intro m
  induction m with
  | nil => simp [mapInsert, mapGet]
  | cons hd t ihm =>
    obtain ⟨k0, v0⟩ := hd
    rw [mapInsert_cons]
    by_cases h1 : k < k0
    · rw [if_pos h1, mapGet_cons, if_pos rfl]
    · rw [if_neg h1]
      by_cases h2 : k = k0
      · rw [if_pos h2, mapGet_cons, if_pos rfl]
      · rw [if_neg h2, mapGet_cons, if_neg h2]
        exact ihm

theorem mapGet_mapInsert_other {k k2 : Nat} (hne : k2 ≠ k) {vs : List (List Nat)} :
    ∀ (m : OptMap), mapGet (mapInsert k vs m) k2 = mapGet m k2 := by
  intro m
  induction m with
  | nil => simp [mapInsert, mapGet, hne]
  | cons hd t ihm =>
    obtain ⟨k0, v0⟩ := hd
    rw [mapInsert_cons]
    by_cases h1 : k < k0
    · rw [if_pos h1, mapGet_cons, if_neg hne]
    · rw [if_neg h1]
      by_cases h2 : k = k0
      · rw [if_pos h2, mapGet_cons, mapGet_cons, if_neg (by omega)]
        rw [if_neg (show ¬k2 = k0 by omega)]
      · rw [if_neg h2, mapGet_cons, mapGet_cons]
        by_cases h3 : k2 = k0
        · rw [if_pos h3, if_pos h3]
        · rw [if_neg h3, if_neg h3]
          exact ihm

theorem mapGet_mapClear_self {k : Nat} :
    ∀ (m : OptMap), mapGet (mapClear k m) k
      = (mapGet m k).map (fun _ => ([] : List (List Nat))) := by
  intro m
  induction m with
  | nil => rfl
  | cons hd t ihm =>
    obtain ⟨k0, v0⟩ := hd
    rw [mapClear_cons]
    by_cases h2 : k = k0
    · rw [if_pos h2, mapGet_cons, mapGet_cons, if_pos h2, if_pos h2]
      rfl
    · rw [if_neg h2, mapGet_cons, mapGet_cons, if_neg h2, if_neg h2]
      exact ihm

theorem mapGet_mapClear_other {k k2 : Nat} (hne : k2 ≠ k) :
    ∀ (m : OptMap), mapGet (mapClear k m) k2 = mapGet m k2 := by
  intro m
  induction m with
  | nil => rfl
  | cons hd t ihm =>
    obtain ⟨k0, v0⟩ := hd
    rw [mapClear_cons]
    by_cases h2 : k = k0
    · rw [if_pos h2, mapGet_cons, mapGet_cons, if_neg (by omega)]
      rw [if_neg (show ¬k2 = k0 by omega)]
    · rw [if_neg h2, mapGet_cons, mapGet_cons]
      by_cases h3 : k2 = k0
      · rw [if_pos h3, if_pos h3]
      · rw [if_neg h3, if_neg h3]
        exact ihm

theorem mapGet_none_iff {key : Nat} :
    ∀ (m : OptMap), mapGet m key = none ↔ key ∉ m.map Prod.fst := by
  intro m
  induction m with
  | nil => simp [mapGet]
  | cons hd t ihm =>
    obtain ⟨k0, v0⟩ := hd
    rw [mapGet_cons]
    by_cases h2 : key = k0
    · rw [if_pos h2]
      simp [h2]
    · rw [if_neg h2]
      simp [h2, ihm]

/-- The deltas emitted while walking the option table starting from running
total `prev`: the first value of a key `k` gets delta `k - prev`, later
values of the same key get delta 0, and the running total becomes `k`.  This
is the encoding the spec describes; the claim theorem proves the source's
encoder equal to it on sorted tables. -/
def encodeOptionsSpec : OptMap → Nat → List Nat
  | [], _ => []
  | (_, []) :: rest, prev => encodeOptionsSpec rest prev
  | (k, v :: vs) :: rest, prev =>
    optionRecordBytes (k - prev) v
      ++ (vs.map (optionRecordBytes 0)).join
      ++ encodeOptionsSpec rest k

/-- Every subtraction `key - runningTotal` the encoder performs is a true
(non-negative) difference: the running total never exceeds the next key. -/
def encodeDeltasOk : OptMap → Nat → Prop
  | [], _ => True
  | (k, []) :: rest, prev => prev ≤ k ∧ encodeDeltasOk rest prev
  | (k, _ :: _) :: rest, prev => prev ≤ k ∧ encodeDeltasOk rest k

theorem encodeValuesFor_atKey {k : Nat} :
    ∀ (vs : List (List Nat)),
      (encodeValuesFor k vs k).1 = (vs.map (optionRecordBytes 0)).join := by
  intro vs
  induction vs with
  | nil => rfl
  | cons w ws ihv =>
    unfold encodeValuesFor
    dsimp only
    rw [Nat.sub_self, Nat.add_zero, ihv]
    simp

theorem encodeOptions_spec_aux :
    ∀ (opts : OptMap) (prev : Nat), KeysSortedFrom prev opts →
      encodeOptions opts prev = encodeOptionsSpec opts prev ∧
      encodeDeltasOk opts prev := by
  intro opts
  induction opts with
  | nil =>
    intro prev _
    exact ⟨rfl, trivial⟩
  | cons hd rest iho =>
    intro prev hs
    obtain ⟨k, vs⟩ := hd
    obtain ⟨hpk, hs2⟩ := hs
    cases vs with
    | nil =>
      have hrec := iho prev (KeysSortedFrom_mono (by omega) hs2)
      unfold encodeOptions encodeOptionsSpec encodeDeltasOk
      dsimp only
      unfold encodeValuesFor
      exact ⟨by rw [List.nil_append, hrec.1], hpk, hrec.2⟩
    | cons v vs2 =>
      have hrec := iho k (KeysSortedFrom_mono (by omega) hs2)
      have hsnd : (encodeValuesFor k (v :: vs2) prev).2 = k :=
        encodeValuesFor_snd (v :: vs2) prev hpk (by simp)
      have hfst : (encodeValuesFor k (v :: vs2) prev).1
          = optionRecordBytes (k - prev) v ++ (vs2.map (optionRecordBytes 0)).join := by
        unfold encodeValuesFor
        dsimp only
        rw [show prev + (k - prev) = k by omega, encodeValuesFor_atKey]
      constructor
      · unfold encodeOptions encodeOptionsSpec
        dsimp only
        rw [hsnd, hfst, hrec.1, List.append_assoc]
      · exact ⟨hpk, hrec.2⟩


/-! ### Claim theorems -/

/-- C1 counterexample: the round-trip claim fails as stated.  A packet built
by set_option with an empty value list (a surface-built packet of encoded
size 4 ≤ 1280) encodes to a buffer that decodes back without the key, and a
packet of the Empty message class with a non-empty payload encodes without
its payload. -/
theorem round_trip_counterexample :
    (Packet.new.set_option CoapOption.UriPath []).to_bytes = .ok [0, 0, 0, 0] ∧
    Built (Packet.new.set_option CoapOption.UriPath []) ∧
    bufLength (Packet.new.set_option CoapOption.UriPath []) ≤ 1280 ∧
    Packet.from_bytes [0, 0, 0, 0] = some (.ok Packet.new) ∧
    Packet.new.options ≠ (Packet.new.set_option CoapOption.UriPath []).options ∧
    (Packet.new.set_payload [104]).to_bytes = .ok [0, 0, 0, 0] ∧
    Built (Packet.new.set_payload [104]) ∧
    bufLength (Packet.new.set_payload [104]) ≤ 1280 ∧
    Packet.new.payload ≠ (Packet.new.set_payload [104]).payload := by
  refine ⟨by decide, Built.setOption _ _ Built.new (by simp), by decide, ?_,
    by decide, by decide, Built.setPayload _ Built.new (by decide), by decide,
    by decide⟩
  simp [Packet.from_bytes, parseOptsIdx, readExtIdx, sliceChecked, headerFromRaw,
    Packet.new, Header.new]

/-- C1: round-trip for surface-built packets, amended: additionally every
option key must hold at least one value, and the payload must be empty when
the message class is Empty.  Then to_bytes succeeds and from_bytes recovers
the packet exactly — header fields, token, option table, payload. -/
theorem round_trip_built {p : Packet} (hB : Built p)
    (hne : ∀ q ∈ p.options, q.2 ≠ ([] : List (List Nat)))
    (hcp : p.header.code ≠ 0 ∨ p.payload = [])
    (hlen : bufLength p ≤ 1280) :
    p.to_bytes = .ok (encodedBytes p) ∧
    Packet.from_bytes (encodedBytes p) = some (.ok p) := by
  obtain ⟨i1, i2, i3, i4, i5, i6, i7, i8⟩ := Built_inv hB
  have hoblen : (optionsBytesOf p).length ≤ 1280 := by
    unfold bufLength at hlen
    omega
  have hvals : ∀ q ∈ p.options, q.2 ≠ [] ∧ ∀ v ∈ q.2, v.length < 65536 := by
    intro q hq
    refine ⟨hne q hq, ?_⟩
    intro v hv
    have := encodeOptions_value_le p.options 0 q v hq hv
    unfold optionsBytesOf at hoblen
    omega
  constructor
  · unfold Packet.to_bytes
    rw [if_neg (by omega)]
  · rw [from_bytes_eq_struct]
    rw [from_bytesS_encoded i1 i2 i3 i4 i5 i6 i7
      (fun q hq => by have := i8 q hq; omega) hvals hcp]

/-- C1 witness: the amended round-trip theorem at a concrete packet. -/
theorem round_trip_built_witness :
    ((((Packet.new.set_code 69).set_token [1, 2]).add_option CoapOption.UriPath
        [104, 105]).set_payload [7, 8]).to_bytes
      = .ok [2, 69, 0, 0, 1, 2, 178, 104, 105, 255, 7, 8] ∧
    Packet.from_bytes [2, 69, 0, 0, 1, 2, 178, 104, 105, 255, 7, 8]
      = some (.ok ((((Packet.new.set_code 69).set_token [1, 2]).add_option
          CoapOption.UriPath [104, 105]).set_payload [7, 8])) := by
  have hB : Built ((((Packet.new.set_code 69).set_token [1, 2]).add_option
      CoapOption.UriPath [104, 105]).set_payload [7, 8]) :=
    Built.setPayload _ (Built.addOption _ _ (Built.setToken _
      (Built.setCode _ Built.new) (by decide) (by decide)) (by decide)) (by decide)
  have h := round_trip_built hB (by decide) (by decide) (by decide)
  have henc : encodedBytes ((((Packet.new.set_code 69).set_token [1, 2]).add_option
      CoapOption.UriPath [104, 105]).set_payload [7, 8])
      = [2, 69, 0, 0, 1, 2, 178, 104, 105, 255, 7, 8] := by decide
  exact ⟨henc ▸ h.1, henc ▸ h.2⟩

/-- C2 counterexample: a strict byte-truncated prefix of a valid encoded
message (the source's Hello test vector cut to 11 bytes) decodes
successfully with a non-empty, truncated payload — so success is not limited
to payload-less prefixes. -/
theorem truncated_prefix_counterexample :
    Packet.from_bytes
        [0x64, 0x45, 0x13, 0xFD, 0xD0, 0xE2, 0x4D, 0xAC, 0xFF, 0x48, 0x65,
          0x6C, 0x6C, 0x6F]
      = some (.ok ⟨⟨1, 2, 4, 0x45, 5117⟩, [0xD0, 0xE2, 0x4D, 0xAC], [],
          [0x48, 0x65, 0x6C, 0x6C, 0x6F]⟩) ∧
    ([0x64, 0x45, 0x13, 0xFD, 0xD0, 0xE2, 0x4D, 0xAC, 0xFF, 0x48, 0x65,
        0x6C, 0x6C, 0x6F] : List Nat).take 11
      = [0x64, 0x45, 0x13, 0xFD, 0xD0, 0xE2, 0x4D, 0xAC, 0xFF, 0x48, 0x65] ∧
    Packet.from_bytes
        [0x64, 0x45, 0x13, 0xFD, 0xD0, 0xE2, 0x4D, 0xAC, 0xFF, 0x48, 0x65]
      = some (.ok ⟨⟨1, 2, 4, 0x45, 5117⟩, [0xD0, 0xE2, 0x4D, 0xAC], [],
          [0x48, 0x65]⟩) ∧
    ([0x48, 0x65] : List Nat) ≠ [] := by
  refine ⟨?_, by decide, ?_, by decide⟩
  · simp [Packet.from_bytes, parseOptsIdx, readExtIdx, sliceChecked, headerFromRaw]
  · simp [Packet.from_bytes, parseOptsIdx, readExtIdx, sliceChecked, headerFromRaw]

/-- C2 (amended): on every input, from_bytes runs to completion without any
out-of-bounds access — it never returns the abort marker — and agrees with
the structural decoder, so decoding any buffer (in particular any truncated
prefix of a valid message) yields either a specific error or a packet. -/
theorem from_bytes_no_oob (buf : List Nat) :
    Packet.from_bytes buf = some (Packet.from_bytesS buf) :=
  from_bytes_eq_struct buf

/-- C3 (code bug): the nibble-14 decoder adds 269 in 16-bit arithmetic, which
overflows for decoded values of 65536 and above, although the claimed (and
RFC-prescribed) range extends to 65804.  Encoding 65804 emits extension bytes
0xFF 0xFF, which decode back to (65535 + 269) mod 2^16 = 268; extension
bytes 0xFE 0xF3 (a declared value length of 65536) decode to length 0, so a
whole record parses with an empty value.  In a debug build the addition
panics instead of wrapping.  The tier boundaries 12 / 13 / 268 / 269
themselves encode and decode correctly. -/
theorem ext14_overflow_bug :
    nibbleCode 65804 = 14 ∧ extBytesOf 65804 = [255, 255] ∧
    readExtS 14 CoapError.InvalidOptionLength [255, 255] = .ok (268, []) ∧
    readExtS (nibbleCode 12) CoapError.InvalidOptionLength (extBytesOf 12)
      = .ok (12, []) ∧
    readExtS (nibbleCode 13) CoapError.InvalidOptionLength (extBytesOf 13)
      = .ok (13, []) ∧
    readExtS (nibbleCode 268) CoapError.InvalidOptionLength (extBytesOf 268)
      = .ok (268, []) ∧
    readExtS (nibbleCode 269) CoapError.InvalidOptionLength (extBytesOf 269)
      = .ok (269, []) ∧
    nibbleCode 12 = 12 ∧ nibbleCode 13 = 13 ∧ nibbleCode 268 = 13 ∧
    nibbleCode 269 = 14 ∧
    Packet.from_bytes [64, 1, 0, 0, 14, 254, 243]
      = some (.ok ⟨⟨1, 0, 0, 1, 0⟩, [], [(0, [[]])], []⟩) := by
  refine ⟨by decide, by decide, by decide, by decide, by decide, by decide,
    by decide, by decide, by decide, by decide, by decide, ?_⟩
  simp [Packet.from_bytes, parseOptsIdx, readExtIdx, sliceChecked, headerFromRaw,
    mapAppend]

/-- C4: whenever the option loop stands at a header byte other than the
payload marker whose delta nibble is 15, it returns InvalidOptionDelta; and
whenever the length nibble is 15 (the delta nibble being valid), it returns
InvalidOptionLength — in both cases a `some` result, never an abort. -/
theorem reserved_nibble_rejected (buf : List Nat) (idx n : Nat) (acc : OptMap)
    (b : Nat) (hb : buf[idx]? = some b) (hmark : b ≠ 255) :
    (b / 16 = 15 →
      parseOptsIdx buf idx n acc = some (.error CoapError.InvalidOptionDelta)) ∧
    (b / 16 ≠ 15 → b % 16 = 15 →
      parseOptsIdx buf idx n acc = some (.error CoapError.InvalidOptionLength)) := by
  have hlt : idx < buf.length := by
    by_contra hc
    rw [List.getElem?_eq_none (by omega)] at hb
    cases hb
  have hidx : buf[idx] = b := by
    rw [List.getElem?_eq_getElem hlt] at hb
    injection hb
  have hd : buf.drop idx = b :: buf.drop (idx + 1) := by
    rw [List.drop_eq_getElem_cons hlt, hidx]
  obtain ⟨bErr, -⟩ := parseOpts_bridge buf.length buf idx n acc (by omega) (by omega)
  constructor
  · intro h15
    apply bErr
    rw [hd]
    exact parseOptsS_err1 hmark (by rw [h15]; exact readExtS_err15 _) _ _
  · intro hd15 hl15
    apply bErr
    rw [hd]
    cases hr1 : readExtS (b / 16) CoapError.InvalidOptionDelta (buf.drop (idx + 1)) with
    | error e1 =>
      rw [readExtS_err_classify hd15 hr1] at hr1
      exact parseOptsS_err1 hmark hr1 _ _
    | ok dr =>
      obtain ⟨delta, rest1⟩ := dr
      exact parseOptsS_err2 hmark hr1 (by rw [hl15]; exact readExtS_err15 _) _ _

/-- C4 witness: the theorem applied to the one-byte buffers 0xF0 (delta
nibble 15) and 0x2F (length nibble 15). -/
theorem reserved_nibble_rejected_witness :
    parseOptsIdx [240] 0 0 [] = some (.error CoapError.InvalidOptionDelta) ∧
    parseOptsIdx [47] 0 0 [] = some (.error CoapError.InvalidOptionLength) :=
  ⟨(reserved_nibble_rejected [240] 0 0 [] 240 rfl (by decide)).1 (by decide),
   (reserved_nibble_rejected [47] 0 0 [] 47 rfl (by decide)).2 (by decide) (by decide)⟩

set_option maxRecDepth 4000 in
/-- C5 counterexample: set_token records the token length through the `as u8`
cast, so a 256-byte token leaves the header token-length field at 0, out of
sync with the stored token. -/
theorem set_token_length_counterexample :
    (Packet.new.set_token (List.replicate 256 0)).header.tkl
      ≠ (Packet.new.set_token (List.replicate 256 0)).token.length := by
  decide

/-- C5 (amended): set_token records the exact length for every token shorter
than 256 bytes (the `as u8` cast truncates longer ones — in particular all
valid tokens of at most 8 bytes are recorded exactly); every successful
decode has token length equal to the header field; and decode rejects a
declared token length over 8, or a buffer shorter than 4 + token length,
with InvalidTokenLength. -/
theorem token_length_sync :
    (∀ (p : Packet) (t : List Nat), t.length < 256 →
      (p.set_token t).header.tkl = t.length ∧ (p.set_token t).token = t) ∧
    (∀ (buf : List Nat) (p : Packet), Packet.from_bytes buf = some (.ok p) →
      p.token.length = p.header.tkl) ∧
    (∀ buf : List Nat, 4 ≤ buf.length →
      (8 < buf.getD 0 0 % 16 ∨ buf.length < 4 + buf.getD 0 0 % 16) →
      Packet.from_bytes buf = some (.error CoapError.InvalidTokenLength)) := by
  refine ⟨?_, ?_, ?_⟩
  · intro p t ht
    unfold Packet.set_token Header.set_token_length
    refine ⟨?_, rfl⟩
    dsimp only
    omega
  · intro buf p hp
    rw [from_bytes_eq_struct] at hp
    injection hp with hp
    unfold Packet.from_bytesS at hp
    by_cases h4 : buf.length < 4
    · rw [if_pos h4] at hp
      cases hp
    · rw [if_neg h4] at hp
      dsimp only at hp
      generalize hhdr : headerFromRaw (buf.getD 0 0) (buf.getD 1 0) (buf.getD 2 0)
          (buf.getD 3 0) = hd0 at hp
      by_cases htkl : hd0.tkl > 8
      · rw [if_pos htkl] at hp
        cases hp
      · rw [if_neg htkl] at hp
        by_cases hos : 4 + hd0.tkl > buf.length
        · rw [if_pos hos] at hp
          cases hp
        · rw [if_neg hos] at hp
          cases hq : parseOptsS (buf.drop (4 + hd0.tkl)) 0 [] with
          | error e =>
            rw [hq] at hp
            cases hp
          | ok pr =>
            obtain ⟨o, rest⟩ := pr
            rw [hq] at hp
            injection hp with hp
            rw [← hp]
            simp only [List.length_take, List.length_drop]
            omega
  · intro buf h4 hbad
    unfold Packet.from_bytes
    rw [if_neg (by omega)]
    dsimp only
    have htkl : (headerFromRaw (buf.getD 0 0) (buf.getD 1 0) (buf.getD 2 0)
        (buf.getD 3 0)).tkl = buf.getD 0 0 % 16 := rfl
    by_cases h8b : 8 < buf.getD 0 0 % 16
    · rw [if_pos (by rw [htkl]; omega)]
    · have hshort : buf.length < 4 + buf.getD 0 0 % 16 := by
        rcases hbad with h8 | hs
        · omega
        · exact hs
      rw [if_neg (by rw [htkl]; omega), if_pos (by rw [htkl]; omega)]

/-- C5 witness: the three parts at concrete inputs: a 3-byte token, the
source's own Hello test vector, and a header declaring token length 9. -/
theorem token_length_sync_witness :
    (Packet.new.set_token [1, 2, 3]).header.tkl = 3 ∧
    (⟨⟨1, 2, 4, 0x45, 5117⟩, [0xD0, 0xE2, 0x4D, 0xAC], [],
        [0x48, 0x65, 0x6C, 0x6C, 0x6F]⟩ : Packet).token.length
      = (⟨⟨1, 2, 4, 0x45, 5117⟩, [0xD0, 0xE2, 0x4D, 0xAC], [],
        [0x48, 0x65, 0x6C, 0x6C, 0x6F]⟩ : Packet).header.tkl ∧
    Packet.from_bytes [73, 0, 0, 0] = some (.error CoapError.InvalidTokenLength) := by
  refine ⟨(token_length_sync.1 Packet.new [1, 2, 3] (by decide)).1, ?_, ?_⟩
  · refine token_length_sync.2.1
      [0x64, 0x45, 0x13, 0xFD, 0xD0, 0xE2, 0x4D, 0xAC, 0xFF, 0x48, 0x65, 0x6C, 0x6C, 0x6F]
      _ ?_
    simp [Packet.from_bytes, parseOptsIdx, readExtIdx, sliceChecked, headerFromRaw]
  · exact token_length_sync.2.2 [73, 0, 0, 0] (by decide) (Or.inl (by decide))

/-- C6: when the option loop stops at a 0xFF marker, the decoded payload is
exactly the bytes after that marker (empty when the marker is the last byte);
when it stops because the buffer is exhausted, decoding succeeds with an
empty payload. -/
theorem payload_extraction (buf : List Nat) (o : OptMap) (rest : List Nat)
    (h4 : ¬buf.length < 4) (htkl : buf.getD 0 0 % 16 ≤ 8)
    (hos : 4 + buf.getD 0 0 % 16 ≤ buf.length)
    (hp : parseOptsS (buf.drop (4 + buf.getD 0 0 % 16)) 0 [] = .ok (o, rest)) :
    ∃ p, Packet.from_bytes buf = some (.ok p) ∧ p.options = o ∧
      ((rest = [] ∧ p.payload = []) ∨
       (∃ j, j < buf.length ∧ rest = buf.drop j ∧ buf.getD j 0 = 255 ∧
          p.payload = buf.drop (j + 1))) := by
  have htkl0 : (headerFromRaw (buf.getD 0 0) (buf.getD 1 0) (buf.getD 2 0)
      (buf.getD 3 0)).tkl = buf.getD 0 0 % 16 := rfl
  have hS : Packet.from_bytesS buf
      = .ok ⟨headerFromRaw (buf.getD 0 0) (buf.getD 1 0) (buf.getD 2 0) (buf.getD 3 0),
          (buf.drop 4).take (buf.getD 0 0 % 16), o, rest.tail⟩ := by
    unfold Packet.from_bytesS
    rw [if_neg h4]
    dsimp only
    rw [if_neg (by rw [htkl0]; omega), if_neg (by rw [htkl0]; omega), htkl0, hp]
  refine ⟨_, by rw [from_bytes_eq_struct, hS], rfl, ?_⟩
  obtain ⟨-, bOk⟩ := parseOpts_bridge buf.length buf (4 + buf.getD 0 0 % 16) 0 []
    (by omega) (by omega)
  obtain ⟨j, hj1, hj2, hj3, -⟩ := bOk o rest hp
  rcases parseOptsS_rest_shape (buf.drop (4 + buf.getD 0 0 % 16)).length _ 0 [] o rest
      (le_refl _) hp with hnil | ⟨t, hcons⟩
  · exact Or.inl ⟨hnil, by rw [hnil]; rfl⟩
  · have hjlt : j < buf.length := by
      by_contra hc
      rw [List.drop_eq_nil_iff.mpr (by omega)] at hj3
      rw [hj3] at hcons
      cases hcons
    have hget : buf[j] = 255 ∧ buf.drop (j + 1) = t := by
      have hx := (List.drop_eq_getElem_cons hjlt).symm.trans (hj3.symm.trans hcons)
      injection hx with hx1 hx2
      exact ⟨hx1, hx2⟩
    refine Or.inr ⟨j, hjlt, hj3, ?_, ?_⟩
    · rw [List.getD_eq_getElem?_getD, List.getElem?_eq_getElem hjlt, hget.1]
      rfl
    · rw [hcons, hget.2]
      rfl

/-- C6 witness: the theorem at the source's Hello test vector, whose option
loop stops at the marker at offset 8. -/
theorem payload_extraction_witness :
    ∃ p, Packet.from_bytes
        [0x64, 0x45, 0x13, 0xFD, 0xD0, 0xE2, 0x4D, 0xAC, 0xFF, 0x48, 0x65, 0x6C, 0x6C, 0x6F]
        = some (.ok p) ∧ p.options = [] ∧
      (([0xFF, 0x48, 0x65, 0x6C, 0x6C, 0x6F] = ([] : List Nat) ∧ p.payload = []) ∨
       (∃ j, j < ([0x64, 0x45, 0x13, 0xFD, 0xD0, 0xE2, 0x4D, 0xAC, 0xFF, 0x48,
            0x65, 0x6C, 0x6C, 0x6F] : List Nat).length ∧
          [0xFF, 0x48, 0x65, 0x6C, 0x6C, 0x6F]
            = ([0x64, 0x45, 0x13, 0xFD, 0xD0, 0xE2, 0x4D, 0xAC, 0xFF, 0x48,
                0x65, 0x6C, 0x6C, 0x6F] : List Nat).drop j ∧
          ([0x64, 0x45, 0x13, 0xFD, 0xD0, 0xE2, 0x4D, 0xAC, 0xFF, 0x48, 0x65,
              0x6C, 0x6C, 0x6F] : List Nat).getD j 0 = 255 ∧
          p.payload = ([0x64, 0x45, 0x13, 0xFD, 0xD0, 0xE2, 0x4D, 0xAC, 0xFF,
              0x48, 0x65, 0x6C, 0x6C, 0x6F] : List Nat).drop (j + 1))) := by
  refine payload_extraction
    [0x64, 0x45, 0x13, 0xFD, 0xD0, 0xE2, 0x4D, 0xAC, 0xFF, 0x48, 0x65, 0x6C, 0x6C, 0x6F]
    [] [0xFF, 0x48, 0x65, 0x6C, 0x6C, 0x6F] (by decide) (by decide) (by decide) ?_
  simp [parseOptsS]

/-- C7: to_bytes fails with InvalidPacketLength exactly when the total
length it computes (4-byte header + token + option bytes + optional marker +
payload) exceeds 1280 bytes, producing no buffer; otherwise it returns the
assembled buffer.  The length check precedes the buffer construction in the
definition, mirroring the source's check-before-allocate order. -/
theorem to_bytes_length_check (p : Packet) :
    (p.to_bytes = .error CoapError.InvalidPacketLength ↔ 1280 < bufLength p) ∧
    (bufLength p ≤ 1280 → p.to_bytes = .ok (encodedBytes p)) := by
  unfold Packet.to_bytes
  by_cases h : bufLength p > 1280
  · rw [if_pos h]
    exact ⟨⟨fun _ => h, fun _ => rfl⟩, fun hc => absurd h (by omega)⟩
  · rw [if_neg h]
    refine ⟨⟨fun he => ?_, fun hc => absurd hc (by omega)⟩, fun _ => rfl⟩
    cases he

set_option maxRecDepth 16000 in
/-- C7 witness: the empty packet encodes to its 4 header bytes; a packet
whose computed length is 1281 is rejected. -/
theorem to_bytes_length_check_witness :
    Packet.new.to_bytes = .ok [0, 0, 0, 0] ∧
    (Packet.new.set_payload (List.replicate 1277 1)).to_bytes
      = .error CoapError.InvalidPacketLength := by
  constructor
  · exact ((to_bytes_length_check Packet.new).2 (by decide)).trans (by decide)
  · exact (to_bytes_length_check
      (Packet.new.set_payload (List.replicate 1277 1))).1.mpr (by decide)

/-- C8: on every packet whose option table is sorted (the BTreeMap
invariant), the option walk of to_bytes equals the specification encoder:
ascending key order, the first value of key k carrying delta k minus the
running total, every later value of the same key carrying delta 0, and every
subtraction exact — the running total never exceeds the key, so no negative
delta is ever formed. -/
theorem encode_delta_spec (p : Packet) (hs : KeysSortedFrom 0 p.options) :
    encodeOptions p.options 0 = encodeOptionsSpec p.options 0 ∧
    encodeDeltasOk p.options 0 :=
  encodeOptions_spec_aux p.options 0 hs

/-- C8 witness: the theorem at a two-key table with a repeated key, plus the
concrete emitted bytes. -/
theorem encode_delta_spec_witness :
    encodeOptions [(11, [[104, 105], [84]]), (15, [[97]])] 0
      = encodeOptionsSpec [(11, [[104, 105], [84]]), (15, [[97]])] 0 ∧
    encodeDeltasOk [(11, [[104, 105], [84]]), (15, [[97]])] 0 ∧
    encodeOptions [(11, [[104, 105], [84]]), (15, [[97]])] 0
      = [178, 104, 105, 1, 84, 65, 97] := by
  refine ⟨(encode_delta_spec
      ⟨Header.new, [], [(11, [[104, 105], [84]]), (15, [[97]])], []⟩ (by decide)).1,
    (encode_delta_spec
      ⟨Header.new, [], [(11, [[104, 105], [84]]), (15, [[97]])], []⟩ (by decide)).2,
    by decide⟩

/-- C9: on packets with a sorted option table, add_option appends at the end
of the key's sequence leaving other keys untouched, set_option replaces the
whole sequence, clear_option empties without removing the key (a populated
key reads back as Some empty list, not None), and get_option is None exactly
when the key is not in the table. -/
theorem option_ops_spec :
    (∀ (p : Packet) (tp : CoapOption) (v : List Nat), KeysSortedFrom 0 p.options →
      (p.add_option tp v).get_option tp
        = some (((p.get_option tp).getD []) ++ [v])) ∧
    (∀ (p : Packet) (tp tq : CoapOption) (v : List Nat),
      tq.get_option_number ≠ tp.get_option_number →
      (p.add_option tp v).get_option tq = p.get_option tq) ∧
    (∀ (p : Packet) (tp : CoapOption) (vs : List (List Nat)),
      (p.set_option tp vs).get_option tp = some vs) ∧
    (∀ (p : Packet) (tp tq : CoapOption) (vs : List (List Nat)),
      tq.get_option_number ≠ tp.get_option_number →
      (p.set_option tp vs).get_option tq = p.get_option tq) ∧
    (∀ (p : Packet) (tp : CoapOption),
      (p.clear_option tp).get_option tp
        = (p.get_option tp).map (fun _ => ([] : List (List Nat)))) ∧
    (∀ (p : Packet) (tp tq : CoapOption), tq.get_option_number ≠ tp.get_option_number →
      (p.clear_option tp).get_option tq = p.get_option tq) ∧
    (∀ (p : Packet) (tp : CoapOption) (vs : List (List Nat)),
      p.get_option tp = some vs → (p.clear_option tp).get_option tp = some []) ∧
    (∀ (p : Packet) (tp : CoapOption),
      p.get_option tp = none ↔ tp.get_option_number ∉ p.options.map Prod.fst) := by
  refine ⟨?_, ?_, ?_, ?_, ?_, ?_, ?_, ?_⟩
  · intro p tp v hs
    exact mapGet_mapAppend_self hs
  · intro p tp tq v hne
    exact mapGet_mapAppend_other hne p.options
  · intro p tp vs
    exact mapGet_mapInsert_self p.options
  · intro p tp tq vs hne
    exact mapGet_mapInsert_other hne p.options
  · intro p tp
    exact mapGet_mapClear_self p.options
  · intro p tp tq hne
    exact mapGet_mapClear_other hne p.options
  · intro p tp vs hv
    simp only [Packet.get_option] at hv
    show mapGet (mapClear tp.get_option_number p.options) tp.get_option_number
      = some []
    rw [mapGet_mapClear_self, hv]
    rfl
  · intro p tp
    exact mapGet_none_iff p.options

/-- C9 witness: the operations at concrete packets. -/
theorem option_ops_spec_witness :
    (Packet.new.add_option CoapOption.UriPath [104]).get_option CoapOption.UriPath
      = some [[104]] ∧
    ((Packet.new.add_option CoapOption.UriPath [104]).add_option CoapOption.UriPath
        [105]).get_option CoapOption.UriPath = some [[104], [105]] ∧
    (Packet.new.set_option CoapOption.UriPath [[1], [2]]).get_option
        CoapOption.UriPath = some [[1], [2]] ∧
    ((Packet.new.add_option CoapOption.UriPath [104]).clear_option
        CoapOption.UriPath).get_option CoapOption.UriPath = some [] ∧
    Packet.new.get_option CoapOption.UriPath = none := by
  refine ⟨(option_ops_spec.1 Packet.new CoapOption.UriPath [104]
      (by decide)).trans (by decide),
    (option_ops_spec.1 (Packet.new.add_option CoapOption.UriPath [104])
      CoapOption.UriPath [105] (by decide)).trans (by decide),
    option_ops_spec.2.2.1 Packet.new CoapOption.UriPath [[1], [2]],
    option_ops_spec.2.2.2.2.2.2.1 (Packet.new.add_option CoapOption.UriPath [104])
      CoapOption.UriPath [[104]] (by decide),
    (option_ops_spec.2.2.2.2.2.2.2 Packet.new CoapOption.UriPath).mpr (by decide)⟩

/-- C10: get_content_format returns None when the ContentFormat option is
absent or its value sequence is empty; otherwise it decodes the first two
bytes of the first value as a big-endian 16-bit number — but when that first
value has fewer than 2 bytes it aborts with an index out of bounds (the
model's `none`) instead of returning an absence signal, a precondition the
spec does not state. -/
theorem get_content_format_spec (p : Packet) :
    (p.get_option CoapOption.ContentFormat = none →
      p.get_content_format = some none) ∧
    (p.get_option CoapOption.ContentFormat = some [] →
      p.get_content_format = some none) ∧
    (∀ v l, p.get_option CoapOption.ContentFormat = some (v :: l) →
      v.length < 2 → p.get_content_format = none) ∧
    (∀ v l b0 b1, p.get_option CoapOption.ContentFormat = some (v :: l) →
      v[0]? = some b0 → v[1]? = some b1 →
      p.get_content_format = some (contentFormatFromU16 (b0 * 256 + b1))) := by
  refine ⟨?_, ?_, ?_, ?_⟩
  · intro h
    simp only [Packet.get_option, CoapOption.get_option_number] at h
    unfold Packet.get_content_format
    rw [h]
  · intro h
    simp only [Packet.get_option, CoapOption.get_option_number] at h
    unfold Packet.get_content_format
    rw [h]
  · intro v l h hlen
    simp only [Packet.get_option, CoapOption.get_option_number] at h
    unfold Packet.get_content_format
    rw [h]
    cases v with
    | nil => rfl
    | cons b0 t =>
      cases t with
      | nil => rfl
      | cons b1 t2 =>
        simp only [List.length_cons] at hlen
        omega
  · intro v l b0 b1 h h0 h1
    simp only [Packet.get_option, CoapOption.get_option_number] at h
    unfold Packet.get_content_format
    rw [h]
    cases v with
    | nil => cases h0
    | cons c0 t =>
      cases t with
      | nil => cases h1
      | cons c1 t2 =>
        simp only [List.getElem?_cons_zero, Option.some.injEq] at h0
        simp only [List.getElem?_cons_succ, List.getElem?_cons_zero,
          Option.some.injEq] at h1
        rw [h0, h1]
        simp

/-- C10 witness: a 1-byte ContentFormat value aborts; a 2-byte value decodes
big-endian; an absent option reads as None. -/
theorem get_content_format_spec_witness :
    (⟨Header.new, [], [(12, [[5]])], []⟩ : Packet).get_content_format = none ∧
    (⟨Header.new, [], [(12, [[0, 50]])], []⟩ : Packet).get_content_format
      = some (some 50) ∧
    Packet.new.get_content_format = some none := by
  refine ⟨(get_content_format_spec _).2.2.1 [5] [] (by decide) (by decide), ?_,
    (get_content_format_spec _).1 (by decide)⟩
  exact ((get_content_format_spec ⟨Header.new, [], [(12, [[0, 50]])], []⟩).2.2.2
    [0, 50] [] 0 50 (by decide) (by decide) (by decide)).trans (by decide)
